import Mathlib

/-!
# libgit2 `fileops.c`: path normalisation, directory materialisation, walks and moves

A shallow embedding of the path functions of `src/fileops.c`
(`gitfo_prettify_dir_path`, `gitfo_prettify_file_path`, `gitfo_mkdir_recurs`,
`gitfo_mkdir_2file`, `gitfo_dirent`, `gitfo_mv`, `gitfo_mv_force`,
`gitfo_cmp_path` and their helpers, POSIX branch), with the properties proved
about them.

Conventions of the embedding.

* A C string (`const char *`) is the `List Char` of its bytes before the
  terminating NUL.  Reading the terminator yields `'\x00'`.
* The output buffer of the normaliser is the list of the bytes
  `buffer_out_start[0 .. len)`.  In the source `len` and
  `buffer_out - buffer_out_start` agree at every loop head, bytes at or after
  that position are never read before being overwritten, so that list is the
  whole observable state of the buffer.
* A pointer that walks a string (`current`, `pp`) is the list of the
  characters from the pointer to the end of the string.
* Error codes are negative integers in the source (`error < GIT_SUCCESS`);
  they are the constructors of `GitError`, a successful return is `Except.ok`.
* Loops that need not consume input on every iteration carry a fuel argument;
  running out of fuel is `none`, and `dir_path_total` shows it never happens.
* The filesystem behind `stat` and `mkdir` is an explicit state that the
  functions take and return.
* A read before the first byte of a buffer has no defined value: a run that
  makes one is `none`.
* A byte of a name given to `gitfo_cmp_path` is a number below 256; whether
  `char` is signed is a parameter of the comparison.
-/

namespace Fileops

/-! ## Error codes and C string reads -/

/-- Error codes of `common.h` used by `fileops.c` (all of them negative). -/
inductive GitError where
  | GIT_ERROR
  | GIT_ENOTFOUND
  | GIT_ENOMEM
  | GIT_EOSERR
  | GIT_EINVALIDPATH
  | GIT_EINVALIDARGS
  deriving DecidableEq

open GitError

deriving instance DecidableEq for Except

/-- The byte `path[i]` of a C string: the terminator past the end.  A read
before the start of the string (undefined in C) is taken as a NUL; the one
place where the source can do it, `retrieve_previous_path_component_start` on
an empty string, returns a negative value whatever that byte is. -/
def charAt (path : List Char) (i : Int) : Char :=
  if i < 0 then '\x00' else path.getD i.toNat '\x00'

/-! ## `retrieve_path_root_offset` (POSIX branch) -/

/-- Source lines 305-321, without the `GIT_WIN32` block: `0` when the path
starts with `/`, `-1` otherwise. -/
def retrieve_path_root_offset (path : List Char) : Int :=
  let offset : Int := 0
  if charAt path offset = '/' then offset else -1

/-! ## `retrieve_previous_path_component_start` -/

/-- The loop `while (offset > start && path[offset-1] != '/') offset--;` with
`offset` a natural number (the loop is only reached with `offset >= 0` or is
not entered). -/
def previous_component_scan (path : List Char) (start : Int) : Nat → Nat
  | 0 => 0
  | k + 1 =>
    if ((k + 1 : Nat) : Int) > start ∧ charAt path ((k : Nat) : Int) ≠ '/' then
      previous_component_scan path start k
    else k + 1

/-- Source lines 366-393.  `Except.error GIT_ERROR` is the negative value
returned through `git__throw(GIT_ERROR, ...)`. -/
def retrieve_previous_path_component_start (path : List Char) : Except GitError Int :=
  let root_offset := retrieve_path_root_offset path
  let start : Int := if root_offset > -1 then 0 + root_offset else 0
  let len : Int := path.length
  let offset : Int := len - 1
  let start : Int := if charAt path start = '/' then start + 1 else start
  let offset : Int := if charAt path offset = '/' then offset - 1 else offset
  if offset < root_offset then Except.error GIT_ERROR
  else if offset < 0 then Except.ok offset
  else Except.ok ((previous_component_scan path start offset.toNat : Nat) : Int)

/-! ## `gitfo_getcwd` and its collaborators -/

/-- The operating system as seen by the normaliser: `getcwd(buf, size)`
either fails (`none`) or stores the working directory. -/
structure Env where
  getcwd : Nat → Option (List Char)

/-- Source lines 522-530: every backslash becomes a slash. -/
def posixify_path (path : List Char) : List Char :=
  path.map (fun c => if c = '\\' then '/' else c)

/-- Modelled from the spec: `git__joinpath` is declared in `util.h` and is not
part of the source file.  Joining with the empty string is documented at its
call site as "Ensure the path ends with a trailing slash". -/
def git__joinpath_empty (path : List Char) : List Char :=
  if path.getLast? = some '/' then path else path ++ ['/']

/-- Source lines 532-552 (POSIX branch, the assertion apart): the working
directory with slashes only and a trailing slash, or `GIT_EOSERR`. -/
def gitfo_getcwd (env : Env) (size : Nat) : Except GitError (List Char) :=
  match env.getcwd size with
  | none => Except.error GIT_EOSERR
  | some cwd_buffer => Except.ok (git__joinpath_empty (posixify_path cwd_buffer))

/-! ## `gitfo_prettify_dir_path` -/

/-- The inner loop of source lines 426-432: copies the segment in front of
`current` to the output and returns the remaining input, the output,
`only_dots` and `segment_len`. -/
def copy_segment : List Char → List Char → Bool → Nat → List Char × List Char × Bool × Nat
  | [], out, only_dots, segment_len => ([], out, only_dots, segment_len)
  | c :: cs, out, only_dots, segment_len =>
    if c ≠ '/' then
      copy_segment cs (out ++ [c]) (only_dots && decide (c = '.')) (segment_len + 1)
    else (c :: cs, out, only_dots, segment_len)

/-- The outer loop of source lines 415-466.  `current` is the rest of the
input, `out` the bytes written so far. -/
def prettify_loop : Nat → List Char → List Char → Option (Except GitError (List Char))
  | 0, _, _ => none
  | _ + 1, [], out => some (Except.ok out)
  | fuel + 1, c :: cs, out =>
    if c = '/' ∧ out.length > 0 ∧ charAt out ((out.length : Int) - 1) = '/' then
      prettify_loop fuel cs out
    else
      match copy_segment (c :: cs) out true 0 with
      | (current, out1, only_dots, segment_len) =>
        if only_dots = true ∧ segment_len = 1 then
          prettify_loop fuel current.tail (out1.take (out1.length - segment_len))
        else if only_dots = true ∧ segment_len = 2 then
          let buf := out1.take (out1.length - segment_len)
          match retrieve_previous_path_component_start buf with
          | Except.error _ => some (Except.error GIT_EINVALIDPATH)
          | Except.ok len =>
            if len < 0 then some (Except.error GIT_EINVALIDPATH)
            else prettify_loop fuel current.tail (buf.take len.toNat)
        else if only_dots = true ∧ segment_len > 0 then
          some (Except.error GIT_EINVALIDPATH)
        else prettify_loop fuel current (out1 ++ ['/'])

/-- Source lines 395-471.  The result is the C string left in `buffer_out`. -/
def gitfo_prettify_dir_path (env : Env) (size : Nat) (path : List Char) :
    Option (Except GitError (List Char)) :=
  let fuel := 2 * path.length + 2
  let root_path_offset := retrieve_path_root_offset path
  if root_path_offset < 0 then
    match gitfo_getcwd env size with
    | Except.error e => some (Except.error e)
    | Except.ok cwd => prettify_loop fuel path cwd
  else prettify_loop fuel path []

/-! ## `gitfo_prettify_file_path` -/

/-- The test `!strncmp(a, b, n)` on two C strings. -/
def strncmp_eq (a b : List Char) (n : Nat) : Bool :=
  decide (a.take n = b.take n)

/-- The loop of source lines 485-488, started at `i`: `true` when some suffix
of length `i < 4` (and shorter than the path) matches the start of `/..`.  The
loop runs for `i = 1, 2, 3` at most, so a fuel of 3 from `i = 1` is never
exhausted before the loop condition fails. -/
def folder_suffix_loop (path : List Char) : Nat → Nat → Bool
  | 0, _ => false
  | fuel + 1, i =>
    if path.length > i ∧ i < 4 then
      if strncmp_eq (path.drop (path.length - i)) ['/', '.', '.'] i then true
      else folder_suffix_loop path fuel (i + 1)
    else false

/-- Source lines 473-502. -/
def gitfo_prettify_file_path (env : Env) (size : Nat) (path : List Char) :
    Option (Except GitError (List Char)) :=
  let path_len := path.length
  if path_len = 0 ∨ (path_len = 1 ∧ charAt path 0 = '.') then
    some (Except.error GIT_EINVALIDPATH)
  else if folder_suffix_loop path 3 1 = true then
    some (Except.error GIT_EINVALIDPATH)
  else
    match gitfo_prettify_dir_path env size path with
    | none => none
    | some (Except.error e) => some (Except.error e)
    | some (Except.ok buffer_out) =>
      let path_len := buffer_out.length
      if path_len < 2 then some (Except.error GIT_EINVALIDPATH)
      else some (Except.ok (buffer_out.take (path_len - 1)))

/-! ## Reference resolution of a rooted path -/

/-- Splits a path on `/`: the segments between separators, empty ones kept. -/
def splitSlash : List Char → List (List Char)
  | [] => [[]]
  | c :: cs =>
    if c = '/' then [] :: splitSlash cs
    else
      match splitSlash cs with
      | [] => [[c]]
      | s :: ss => (c :: s) :: ss

/-- A segment made only of dots (the empty segment included). -/
def allDots (seg : List Char) : Bool := seg.all (fun c => decide (c = '.'))

/-- The stack scan of the reference resolution; the top of the stack is the
head of the list. -/
def refScan : List (List Char) → List (List Char) → Option (List (List Char))
  | [], stack => some stack
  | seg :: segs, stack =>
    if seg = [] ∨ seg = ['.'] then refScan segs stack
    else if seg = ['.', '.'] then
      match stack with
      | [] => none
      | _ :: below => refScan segs below
    else if allDots seg = true then none
    else refScan segs (seg :: stack)

/-- The output for a stack: `/`, then every stacked segment followed by `/`,
bottom of the stack first. -/
def render : List (List Char) → List Char
  | [] => ['/']
  | seg :: below => render below ++ seg ++ ['/']

/-- The reference resolution of a rooted path. -/
def refResolve (p : List Char) : Option (List Char) :=
  (refScan (splitSlash p) []).map render

/-- The outcome the normaliser reports for a reference result: both failures
of the reference are `GIT_EINVALIDPATH` in the source. -/
def refOutcome (r : Option (List Char)) : Option (Except GitError (List Char)) :=
  match r with
  | none => some (Except.error GIT_EINVALIDPATH)
  | some out => some (Except.ok out)

/-! ## Segments and canonical stacks -/

/-- An ordinary segment: not empty, without a separator, not made only of
dots. -/
def ordinary (seg : List Char) : Prop :=
  seg ≠ [] ∧ '/' ∉ seg ∧ allDots seg = false

instance (seg : List Char) : Decidable (ordinary seg) := by
  unfold ordinary
  infer_instance

/-- The segment in front of the input: the characters before the first
separator. -/
def segHead (cur : List Char) : List Char := cur.takeWhile (fun c => decide (c ≠ '/'))

/-- The input from the first separator on. -/
def segRest (cur : List Char) : List Char := cur.dropWhile (fun c => decide (c ≠ '/'))

/-- The segments that follow the first separator of `segRest`. -/
def tailSegs : List Char → List (List Char)
  | [] => []
  | _ :: r => splitSlash r

/-- A stack of ordinary segments. -/
def canonStack (stack : List (List Char)) : Prop := ∀ seg ∈ stack, ordinary seg

instance (stack : List (List Char)) : Decidable (canonStack stack) := by
  unfold canonStack
  infer_instance

/-! ## Paths used to state the claims -/

/-- An environment whose working directory is `cwd`: `getcwd` fails when the
directory and its terminator do not fit in `size` bytes. -/
def envOf (cwd : List Char) : Env :=
  ⟨fun size => if cwd.length < size then some cwd else none⟩

/-- The segments `s1 .. sn` written as `s1/s2/.../sn/`. -/
def slashJoin : List (List Char) → List Char
  | [] => []
  | s :: ss => s ++ '/' :: slashJoin ss

/-- The path `../` repeated `n` times. -/
def dotdots : Nat → List Char
  | 0 => []
  | n + 1 => '.' :: '.' :: '/' :: dotdots n

/-! ## A filesystem model for `stat` and `mkdir`

The collaborators `stat(path)` and `mkdirOne(path, mode)` of the source are
system calls.  The model is a POSIX-like tree without symbolic links: an entry
is reached by walking the components of a path from the root (or from the
working directory), every directory walked through has to exist, `.` stays in
place and `..` goes to the parent. -/

/-- The kind of a filesystem entry. -/
inductive Kind where
  | dir
  | file
  deriving DecidableEq

/-- Values of `errno` set by the modelled system calls. -/
inductive Errno where
  | ENOENT
  | ENOTDIR
  | EEXIST
  | EACCES
  deriving DecidableEq

open Kind Errno

/-- A filesystem state.  A location is the list of the names from the entry up
to the root, innermost name first; the root is `[]` and is always a directory.
`denied loc` says that the system refuses to create an entry in the directory
`loc` (`EACCES`). -/
structure FS where
  entry : List (List Char) → Option Kind
  denied : List (List Char) → Bool
  cwd : List (List Char)

/-- The kind of the entry at a location, if there is one. -/
def kindAt (fs : FS) (loc : List (List Char)) : Option Kind :=
  if loc = [] then some dir else fs.entry loc

/-- Every entry lies in a directory. -/
def wellFormed (fs : FS) : Prop :=
  ∀ (c : List Char) (loc : List (List Char)),
    kindAt fs (c :: loc) ≠ none → kindAt fs loc = some dir

/-- The components of a path: its non-empty segments. -/
def components (path : List Char) : List (List Char) :=
  (splitSlash path).filter (fun s => decide (s ≠ []))

/-- Where the walk of a path starts: the root for a rooted path. -/
def startLoc (fs : FS) (path : List Char) : List (List Char) :=
  if path.head? = some '/' then [] else fs.cwd

/-- One step of a walk, from the directory `loc` along the component `c`. -/
def stepInto (loc : List (List Char)) (c : List Char) : List (List Char) :=
  if c = ['.'] then loc else if c = ['.', '.'] then loc.tail else c :: loc

/-- Walks the components from `loc`; every location that is left has to be a
directory. -/
def walk (fs : FS) : List (List Char) → List (List Char) → Except Errno (List (List Char))
  | loc, [] => Except.ok loc
  | loc, c :: cs =>
    match kindAt fs loc with
    | none => Except.error ENOENT
    | some file => Except.error ENOTDIR
    | some dir => walk fs (stepInto loc c) cs

/-- The location a path names once `.` and `..` are resolved on the names
alone, without looking at the filesystem. -/
def lexLoc (path : List Char) : List (List Char) :=
  (components path).foldl stepInto []

/-- The system call `stat(path)`, reduced to the kind of the entry that the
components of the path lead to.  Trailing separators are not looked at, where
`stat(2)` reports `ENOTDIR` for a regular file. -/
def stat (fs : FS) (path : List Char) : Except Errno Kind :=
  if path = [] then Except.error ENOENT
  else
    match walk fs (startLoc fs path) (components path) with
    | Except.error e => Except.error e
    | Except.ok loc =>
      match kindAt fs loc with
      | none => Except.error ENOENT
      | some k => Except.ok k

/-- The system call `mkdir(path, mode)`: the new state, or the `errno` of the
failure. -/
def mkdir (fs : FS) (path : List Char) : Except Errno FS :=
  match (components path).reverse with
  | [] => Except.error (if path = [] then ENOENT else EEXIST)
  | c :: parents =>
    match walk fs (startLoc fs path) parents.reverse with
    | Except.error e => Except.error e
    | Except.ok par =>
      match kindAt fs par with
      | none => Except.error ENOENT
      | some file => Except.error ENOTDIR
      | some dir =>
        if c = ['.'] ∨ c = ['.', '.'] then Except.error EEXIST
        else if kindAt fs (c :: par) ≠ none then Except.error EEXIST
        else if fs.denied par = true then Except.error EACCES
        else Except.ok
          { fs with entry := fun loc => if loc = c :: par then some dir else fs.entry loc }

/-! ## `gitfo_isdir` and `gitfo_mkdir_recurs` -/

/-- Source lines 109-137 (the `NULL` test apart): `Except.ok ()` when the path,
without one trailing slash, names a directory. -/
def gitfo_isdir (fs : FS) (path : List Char) : Except GitError Unit :=
  let len := path.length
  let stat_error :=
    if charAt path ((len : Int) - 1) = '/' then stat fs (path.take (len - 1))
    else stat fs path
  match stat_error with
  | Except.error _ => Except.error GIT_ENOTFOUND
  | Except.ok k => if k ≠ dir then Except.error GIT_ENOTFOUND else Except.ok ()

/-- The loop of source lines 340-353 followed by the statement of lines
355-356.  `done` is `path_copy[0 .. pp)`, `seg` the characters that `strchr`
has passed since `pp`, the third argument the characters still to scan.  The
result is `error` (`none` for `GIT_SUCCESS`, otherwise the `errno` of the failed
`mkdir`) and the final state.  When no separator was found `pp - 1` lies before
the string; that byte is taken as different from `/`. -/
def mkdir_recurs_loop (path_copy : List Char) :
    List Char → List Char → List Char → FS → Option Errno × FS
  | done, _, [], fs =>
    if done.getLast? ≠ some '/' then
      match mkdir fs path_copy with
      | Except.error e => (some e, fs)
      | Except.ok fs1 => (none, fs1)
    else (none, fs)
  | done, seg, c :: rest, fs =>
    if c = '/' then
      if seg ≠ [] ∧ gitfo_isdir fs path_copy ≠ Except.ok () then
        match mkdir fs (done ++ seg) with
        | Except.ok fs1 => mkdir_recurs_loop path_copy (done ++ seg ++ ['/']) [] rest fs1
        | Except.error e =>
          if e = EEXIST then mkdir_recurs_loop path_copy (done ++ seg ++ ['/']) [] rest fs
          else (some e, fs)
      else mkdir_recurs_loop path_copy (done ++ seg ++ ['/']) [] rest fs
    else mkdir_recurs_loop path_copy done (seg ++ [c]) rest fs

/-- Source lines 324-364 (allocation failure apart). -/
def gitfo_mkdir_recurs (fs : FS) (path : List Char) : Option Errno × FS :=
  let root_path_offset := retrieve_path_root_offset path
  if root_path_offset > 0 then
    mkdir_recurs_loop path (path.take root_path_offset.toNat) []
      (path.drop root_path_offset.toNat) fs
  else mkdir_recurs_loop path [] [] path fs

/-- The state with the given entries, in which nothing is denied and the
working directory is the root. -/
def fsOf (entries : List (List (List Char) × Kind)) : FS :=
  { entry := fun loc => (entries.find? (fun e => decide (e.1 = loc))).map (fun e => e.2),
    denied := fun _ => false,
    cwd := [] }

/-- The state `fs` comes from `fs0` by creating directories: it is well
formed, denies nothing, keeps every entry of `fs0` and has no file that `fs0`
does not have. -/
structure Grown (fs0 fs : FS) : Prop where
  wf : wellFormed fs
  perm : ∀ loc, fs.denied loc = false
  keeps : ∀ loc k, kindAt fs0 loc = some k → kindAt fs loc = some k
  nofile : ∀ loc, kindAt fs loc = some file → kindAt fs0 loc = some file

/-- The state `fs1` keeps every entry of `fs` and has the same working
directory. -/
structure Extends (fs fs1 : FS) : Prop where
  keeps : ∀ loc k, kindAt fs loc = some k → kindAt fs1 loc = some k
  cwd : fs1.cwd = fs.cwd

/-! ## `gitfo_cmp_path`

Entry names are byte strings: lists of the values `0 .. 255` of their bytes. -/

/-- The library function `memcmp(a, b, n)`: the bytes are compared as unsigned
values; the difference of the first two bytes that differ stands for the
return value, of which the standard fixes the sign only.  A byte past the end
of a list reads as 0. -/
def memcmp : List Nat → List Nat → Nat → Int
  | _, _, 0 => 0
  | a, b, n + 1 =>
    if a.headD 0 ≠ b.headD 0 then (a.headD 0 : Int) - (b.headD 0 : Int)
    else memcmp a.tail b.tail n

/-- The value of a plain `char` that holds the byte `b`, promoted to `int`:
negative from 128 on where `char` is signed. -/
def charVal (char_signed : Bool) (b : Nat) : Int :=
  if char_signed = true ∧ 128 ≤ b then (b : Int) - 256 else (b : Int)

/-- Source lines 504-520.  `char_signed` says whether plain `char` is signed
on the platform; 47 is the code of `/`. -/
def gitfo_cmp_path (char_signed : Bool) (name1 : List Nat) (len1 : Nat) (isdir1 : Bool)
    (name2 : List Nat) (len2 : Nat) (isdir2 : Bool) : Int :=
  let len := if len1 < len2 then len1 else len2
  let cmp := memcmp name1 name2 len
  if cmp ≠ 0 then cmp
  else if len1 < len2 then
    (if isdir1 = false ∧ isdir2 = false then -1
      else if isdir1 = true then 47 - charVal char_signed (name2.getD len1 0)
      else charVal char_signed (name2.getD len1 0) - 47)
  else if len1 > len2 then
    (if isdir1 = false ∧ isdir2 = false then 1
      else if isdir2 = true then charVal char_signed (name1.getD len2 0) - 47
      else 47 - charVal char_signed (name1.getD len2 0))
  else 0

/-- The name as it sorts in a tree: followed by `/` for a directory. -/
def treeName (name : List Nat) (isdir : Bool) : List Nat :=
  if isdir = true then name ++ [47] else name

/-- The sign of the lexicographic comparison of two byte strings, bytes taken
as unsigned values. -/
def lexCmp : List Nat → List Nat → Int
  | [], [] => 0
  | [], _ :: _ => -1
  | _ :: _, [] => 1
  | x :: xs, y :: ys => if x < y then -1 else if y < x then 1 else lexCmp xs ys

/-- The bytes of an ASCII string. -/
def bytesOf (s : String) : List Nat := s.toList.map Char.toNat

/-! ## `gitfo_dirent`

The directory reader (`opendir`, `readdir`, `closedir`) is a collaborator: for
a path it fails or delivers the names of the entries in the order `readdir`
returns them.  The visitor `fn` is a function of its own state (`arg`) and of
the entry path that returns its value and its new state; it does not write to
the directory part of the buffer.  A run records the calls of the visitor and
the indices of the buffer that were written. -/

/-- What `gitfo_dirent` returns: an error of its own (`git__throw`), or a
value it passes on, the value of the visitor or 0 for `GIT_SUCCESS`. -/
inductive DirentResult where
  | thrown (e : GitError)
  | returned (v : Int)
  deriving DecidableEq

/-- The state of a run of `gitfo_dirent`. -/
structure DirentRun (σ : Type) where
  ret : DirentResult
  arg : σ
  path : List Char
  calls : List (List Char × Int)
  writes : List Nat
  deriving DecidableEq

/-- The loop of source lines 261-262 with `wd_len` as argument.  At `wd_len = 0`
the loop condition reads `path[wd_len - 1]`, a byte before the buffer: the
result is `none`. -/
def dirent_strip (path : List Char) : Nat → Option Nat
  | 0 => none
  | k + 1 => if charAt path ((k : Nat) : Int) = '/' then dirent_strip path k else some (k + 1)

/-- The test of source lines 275-280 that skips the entries `.` and `..`. -/
def dirent_skip (d_name : List Char) : Bool :=
  decide (charAt d_name 0 = '.') &&
    (decide (charAt d_name 1 = '\x00') ||
      (decide (charAt d_name 1 = '.') && decide (charAt d_name 2 = '\x00')))

/-- The loop of source lines 270-298 over the names still to be read, followed
by the return of line 301.  `dir` is `path[0 .. wd_len)`. -/
def dirent_loop {σ : Type} (fn : σ → List Char → Int × σ) (path_sz : Nat)
    (dir : List Char) : List (List Char) → DirentRun σ → DirentRun σ
  | [], run => { run with ret := DirentResult.returned 0 }
  | d_name :: rest, run =>
    if dirent_skip d_name = true then dirent_loop fn path_sz dir rest run
    else
      let wd_len := dir.length
      let de_len := d_name.length
      if path_sz < wd_len + de_len + 1 then
        { run with ret := DirentResult.thrown GIT_ERROR }
      else
        let result := (fn run.arg (dir ++ d_name)).1
        let run1 : DirentRun σ :=
          { ret := run.ret,
            arg := (fn run.arg (dir ++ d_name)).2,
            path := dir ++ d_name,
            calls := run.calls ++ [(dir ++ d_name, result)],
            writes := run.writes ++ (List.range (de_len + 1)).map (fun i => wd_len + i) }
        if result < 0 then { run1 with ret := DirentResult.returned result }
        else if result > 0 then { run1 with ret := DirentResult.returned result }
        else dirent_loop fn path_sz dir rest run1

/-- Source lines 248-302.  The result is `none` when the run reads a byte
before the buffer. -/
def gitfo_dirent {σ : Type} (opendir : List Char → Option (List (List Char)))
    (fn : σ → List Char → Int × σ) (path : List Char) (path_sz : Nat) (arg : σ) :
    Option (DirentRun σ) :=
  let wd_len := path.length
  if wd_len = 0 ∨ path_sz < wd_len + 2 then
    some { ret := DirentResult.thrown GIT_EINVALIDARGS, arg := arg, path := path,
           calls := [], writes := [] }
  else
    match dirent_strip path wd_len with
    | none => none
    | some k =>
      let dir := path.take k ++ ['/']
      let run0 : DirentRun σ :=
        { ret := DirentResult.returned 0, arg := arg, path := dir, calls := [],
          writes := [k, k + 1] }
      match opendir dir with
      | none => some { run0 with ret := DirentResult.thrown GIT_EOSERR }
      | some entries => some (dirent_loop fn path_sz dir entries run0)

/-- The path without its trailing slashes. -/
def stripSlashes (path : List Char) : List Char :=
  (path.reverse.dropWhile (fun c => decide (c = '/'))).reverse

/-- A visitor that counts its calls and returns 0. -/
def countingVisitor (n : Nat) (_ : List Char) : Int × Nat := (0, n + 1)

/-- A visitor that returns `v` on the entry path `stop` and 0 elsewhere. -/
def stoppingVisitor (stop : List Char) (v : Int) (n : Nat) (p : List Char) : Int × Nat :=
  (if p = stop then v else 0, n + 1)

/-- A directory reader that knows one directory. -/
def readerOf (dir : List Char) (entries : List (List Char)) (p : List Char) :
    Option (List (List Char)) :=
  if p = dir then some entries else none

/-! ### The stripping loop below the buffer

On a machine with a flat memory the byte before the buffer is a byte of some
other object, or of the same string when the caller passes a pointer into it,
and `wd_len`, a `size_t`, wraps below 0.  `before` holds the bytes at
`path[-1]`, `path[-2]`, and so on; `size_t` has 64 bits. -/

/-- The loop of source lines 261-262 once `wd_len` has reached 0: the number
of bytes `/` that it passes before the buffer; `none` when it runs through all
the bytes that are given. -/
def dirent_strip_below : List Char → Option Nat
  | [] => none
  | c :: rest => if c = '/' then (dirent_strip_below rest).map (fun n => n + 1) else some 0

/-- The values of `wd_len` at the stores `path[wd_len++] = '/'` and
`path[wd_len] = '\0'` of source lines 263-264. -/
def dirent_store_indices (before path : List Char) : Option (Nat × Nat) :=
  match dirent_strip path path.length with
  | some k => some (k, k + 1)
  | none =>
    match dirent_strip_below before with
    | none => none
    | some n => some ((2 ^ 64 - n) % 2 ^ 64, (2 ^ 64 - n + 1) % 2 ^ 64)

/-- The test of source line 283 and the `strcpy` of line 288 on an entry name
of `de_len` bytes, in the arithmetic of `size_t`: `none` when the test reports
a buffer that is too short, otherwise the indices of the bytes that are
written, the terminator included. -/
def dirent_entry_writes (wd_len de_len path_sz : Nat) : Option (List Nat) :=
  if path_sz < (wd_len + de_len + 1) % 2 ^ 64 then none
  else some ((List.range (de_len + 1)).map (fun i => (wd_len + i) % 2 ^ 64))

/-- The outcomes of a run: either every call of the visitor returned 0 and
the run ended with 0 or with an error of `gitfo_dirent` itself, or the last
call returned a value other than 0, every call before it returned 0, and that
value is what the run returned. -/
def direntShape {σ : Type} (run : DirentRun σ) : Prop :=
  ((run.ret = DirentResult.returned 0 ∨ ∃ e, run.ret = DirentResult.thrown e) ∧
    ∀ c ∈ run.calls, c.2 = 0) ∨
  ∃ pre p v, v ≠ 0 ∧ run.calls = pre ++ [(p, v)] ∧ (∀ c ∈ pre, c.2 = 0) ∧
    run.ret = DirentResult.returned v

/-! ## Files and directories: `link`, `unlink`, `rename`

The system calls behind `gitfo_mv` act on a state that knows, besides the
entries, which file each entry names and what the files hold.  Two entries
that name the same file are hard links of it.  The calls follow POSIX
`link(2)`, `unlink(2)` and `rename(2)` on a filesystem without symbolic
links; an entry is created in or removed from a directory only where the
directory does not deny it. -/

/-- Whether the location `l` is `a` or lies below it. -/
def below (a l : List (List Char)) : Bool := decide (l.drop (l.length - a.length) = a)

/-- The location that the components of a path lead to from `start` once `.`
and `..` are resolved on the names alone, without looking at the filesystem. -/
def lexFrom (start : List (List Char)) (path : List Char) : List (List Char) :=
  (components path).foldl stepInto start

theorem charAt_ofNat (path : List Char) (k : Nat) :
    charAt path (k : Int) = path.getD k '\x00' := by
  unfold charAt
  have h : ¬ ((k : Int) < 0) := by omega
  simp [h]

theorem charAt_append_left (a b : List Char) (k : Nat) (h : k < a.length) :
    charAt (a ++ b) (k : Int) = charAt a (k : Int) := by
  rw [charAt_ofNat, charAt_ofNat]
  simp [List.getD_eq_getElem?_getD, List.getElem?_append_left h]

theorem charAt_append_right (a b : List Char) (k : Nat) :
    charAt (a ++ b) ((a.length + k : Nat) : Int) = charAt b (k : Int) := by
  rw [charAt_ofNat, charAt_ofNat]
  simp [List.getD_eq_getElem?_getD, List.getElem?_append_right]

theorem charAt_snoc_last (a : List Char) (c : Char) :
    charAt (a ++ [c]) (((a ++ [c]).length : Int) - 1) = c := by
  have h : (((a ++ [c]).length : Int) - 1) = ((a.length + 0 : Nat) : Int) := by
    simp
  rw [h, charAt_append_right, charAt_ofNat]
  simp

/-! ## The segment copy loop -/

theorem copy_segment_eq (cur out : List Char) (od : Bool) (n : Nat) :
    copy_segment cur out od n
      = (segRest cur, out ++ segHead cur, od && allDots (segHead cur), n + (segHead cur).length) := by
  induction cur generalizing out od n with
  | nil => simp [copy_segment, segRest, segHead, allDots]
  | cons c cs ih =>
    by_cases hc : c = '/'
    · subst hc
      simp [copy_segment, segRest, segHead, allDots]
    · simp [copy_segment, segRest, segHead, allDots, hc, ih, Bool.and_assoc]
      omega

theorem segHead_no_slash (cur : List Char) : '/' ∉ segHead cur := by
  induction cur with
  | nil => simp [segHead]
  | cons c cs ih =>
    by_cases hc : c = '/'
    · simp [segHead, hc]
    · have h2 : ¬ ('/' = c) := fun h => hc h.symm
      simpa [segHead, hc, h2] using ih

theorem segHead_append_segRest (cur : List Char) : segHead cur ++ segRest cur = cur := by
  simp [segHead, segRest]

theorem segRest_cases (cur : List Char) :
    segRest cur = [] ∨ ∃ r, segRest cur = '/' :: r := by
  induction cur with
  | nil => simp [segRest]
  | cons c cs ih =>
    by_cases hc : c = '/'
    · right
      exact ⟨cs, by simp [segRest, hc]⟩
    · simpa [segRest, hc] using ih

theorem splitSlash_ne_nil (cur : List Char) : splitSlash cur ≠ [] := by
  cases cur with
  | nil => simp [splitSlash]
  | cons c cs =>
    by_cases hc : c = '/'
    · simp [splitSlash, hc]
    · simp only [splitSlash, hc, if_false]
      split <;> simp

theorem splitSlash_eq (cur : List Char) :
    splitSlash cur = segHead cur :: tailSegs (segRest cur) := by
  induction cur with
  | nil => simp [splitSlash, segHead, segRest, tailSegs]
  | cons c cs ih =>
    by_cases hc : c = '/'
    · simp [splitSlash, segHead, segRest, tailSegs, hc]
    · simp only [splitSlash, hc, if_false]
      rw [ih]
      simp [segHead, segRest, hc]

theorem segRest_length_le (cur : List Char) : (segRest cur).length ≤ cur.length := by
  have h := congrArg List.length (segHead_append_segRest cur)
  simp at h
  omega

theorem segRest_length_lt (cur : List Char) (h : segHead cur ≠ []) :
    (segRest cur).length < cur.length := by
  have h1 := congrArg List.length (segHead_append_segRest cur)
  have h2 : 0 < (segHead cur).length := List.length_pos.mpr h
  simp at h1
  omega

/-! ## Facts on rendered stacks -/

theorem render_snoc (stack : List (List Char)) : ∃ a, render stack = a ++ ['/'] := by
  cases stack with
  | nil => exact ⟨[], rfl⟩
  | cons seg below => exact ⟨render below ++ seg, rfl⟩

theorem render_head (stack : List (List Char)) : ∃ a, render stack = '/' :: a := by
  induction stack with
  | nil => exact ⟨[], rfl⟩
  | cons seg below ih =>
    obtain ⟨a, ha⟩ := ih
    exact ⟨a ++ seg ++ ['/'], by simp [render, ha]⟩

theorem render_length_pos (stack : List (List Char)) : 0 < (render stack).length := by
  obtain ⟨a, ha⟩ := render_head stack
  simp [ha]

theorem render_charAt_last (stack : List (List Char)) :
    charAt (render stack) (((render stack).length : Int) - 1) = '/' := by
  obtain ⟨a, ha⟩ := render_snoc stack
  rw [ha]
  exact charAt_snoc_last a '/'

theorem render_charAt_zero (stack : List (List Char)) (b : List Char) :
    charAt (render stack ++ b) 0 = '/' := by
  obtain ⟨a, ha⟩ := render_head stack
  rw [ha]
  rfl

/-! ## The previous component of a rendered stack -/

theorem previous_component_scan_eq (a : List Char) (start : Int)
    (hstart : start ≤ ((a ++ ['/']).length : Int)) (s : List Char) :
    ∀ t : List Char, '/' ∉ s →
      previous_component_scan (a ++ ['/'] ++ s ++ t) start ((a ++ ['/']).length + s.length)
        = (a ++ ['/']).length := by
  induction s using List.reverseRecOn with
  | nil =>
    intro t _
    have h1 : charAt (a ++ ['/'] ++ [] ++ t) ((a.length : Nat) : Int) = '/' := by
      have h := charAt_append_right a (['/'] ++ t) 0
      simp only [Nat.add_zero] at h
      simp only [List.append_nil, List.append_assoc]
      rw [h]
      rfl
    simp only [List.length_append, List.length_singleton, List.length_nil, Nat.add_zero]
    rw [previous_component_scan, if_neg]
    intro h
    exact h.2 h1
  | append_singleton s c ih =>
    intro t hs
    have hc : c ≠ '/' := by
      intro h
      apply hs
      simp [h]
    have hs2 : '/' ∉ s := by
      intro h
      apply hs
      simp [h]
    have hread : charAt (a ++ ['/'] ++ (s ++ [c]) ++ t)
        ((((a ++ ['/']).length + s.length : Nat)) : Int) = c := by
      have h := charAt_append_right (a ++ ['/'] ++ s) ([c] ++ t) 0
      simp only [Nat.add_zero, List.length_append] at h
      simp only [List.append_assoc, List.length_append] at h ⊢
      rw [h]
      rfl
    have hlen : (a ++ ['/']).length + (s ++ [c]).length
        = ((a ++ ['/']).length + s.length) + 1 := by
      simp
      omega
    rw [hlen, previous_component_scan]
    have hgt : (((a ++ ['/']).length + s.length + 1 : Nat) : Int) > start := by
      push_cast
      omega
    rw [if_pos ⟨hgt, by rw [hread]; exact hc⟩]
    have h := ih ([c] ++ t) hs2
    simpa [List.append_assoc] using h

theorem retrieve_previous_render (seg : List Char) (below : List (List Char))
    (hne : seg ≠ []) (hns : '/' ∉ seg) :
    retrieve_previous_path_component_start (render (seg :: below))
      = Except.ok (((render below).length : Nat) : Int) := by
  obtain ⟨a, ha⟩ := render_snoc below
  obtain ⟨s, c, hsc⟩ : ∃ s c, seg = s ++ [c] := by
    rcases List.eq_nil_or_concat seg with h | ⟨s, c, h⟩
    · exact absurd h hne
    · exact ⟨s, c, by simpa using h⟩
  have hs : '/' ∉ s := by
    intro h
    apply hns
    simp [hsc, h]
  have h0 : charAt (render (seg :: below)) 0 = '/' := by
    have h := render_charAt_zero below (seg ++ ['/'])
    simpa [render, List.append_assoc] using h
  have hlast : charAt (render (seg :: below)) (((render (seg :: below)).length : Int) - 1) = '/' :=
    render_charAt_last (seg :: below)
  have hlen : ((render (seg :: below)).length : Int)
      = (((a ++ ['/']).length + s.length : Nat) : Int) + 2 := by
    simp [render, ha, hsc]
    omega
  unfold retrieve_previous_path_component_start retrieve_path_root_offset
  simp only [h0, if_true]
  have h1 : ((-1 : Int) < 0) := by omega
  simp only [gt_iff_lt, h1, if_true, Int.add_zero, h0, Int.zero_add]
  rw [hlast]
  simp only [if_true]
  rw [hlen]
  have e1 : (((a ++ ['/']).length + s.length : Nat) : Int) + 2 - 1 - 1
      = (((a ++ ['/']).length + s.length : Nat) : Int) := by omega
  rw [e1]
  have e2 : ¬ ((((a ++ ['/']).length + s.length : Nat) : Int) < 0) := by omega
  rw [if_neg e2, if_neg e2, Int.toNat_ofNat]
  have hpath : render (seg :: below) = a ++ ['/'] ++ s ++ [c, '/'] := by
    simp [render, ha, hsc]
  rw [hpath, previous_component_scan_eq a 1 (by simp) s [c, '/'] hs, ha]

theorem retrieve_previous_root :
    retrieve_previous_path_component_start (render []) = Except.error GIT_ERROR := by
  decide

/-! ## The normaliser loop against the reference scan -/

theorem allDots_length_one (seg : List Char) :
    (allDots seg = true ∧ seg.length = 1) ↔ seg = ['.'] := by
  constructor
  · rintro ⟨h1, h2⟩
    match seg, h1, h2 with
    | [c], h1, _ =>
      simp [allDots] at h1
      simp [h1]
  · rintro rfl
    decide

theorem allDots_length_two (seg : List Char) :
    (allDots seg = true ∧ seg.length = 2) ↔ seg = ['.', '.'] := by
  constructor
  · rintro ⟨h1, h2⟩
    match seg, h1, h2 with
    | [c, d], h1, _ =>
      simp [allDots] at h1
      simp [h1]
  · rintro rfl
    decide

theorem refScan_segRest (cur : List Char) (stack : List (List Char)) :
    refScan (splitSlash (segRest cur)) stack = refScan (tailSegs (segRest cur)) stack := by
  rcases segRest_cases cur with h | ⟨r, h⟩
  · rw [h]
    simp [splitSlash, tailSegs, refScan]
  · rw [h]
    simp [splitSlash, tailSegs, refScan]

theorem render_take_below (seg : List Char) (below : List (List Char)) :
    (render (seg :: below)).take (render below).length = render below := by
  simp [render, List.append_assoc, List.take_left']

theorem prettify_loop_render :
    ∀ (fuel : Nat) (cur : List Char) (stack : List (List Char)),
      canonStack stack → 2 * cur.length + 1 ≤ fuel →
      prettify_loop fuel cur (render stack)
        = refOutcome ((refScan (splitSlash cur) stack).map render) := by
  intro fuel
  induction fuel with
  | zero =>
    intro cur stack _ hf
    omega
  | succ fuel ih =>
    intro cur stack hst hf
    cases cur with
    | nil => simp [prettify_loop, splitSlash, refScan, refOutcome]
    | cons c cs =>
      by_cases hc : c = '/'
      · subst hc
        have hcond : '/' = '/' ∧ (render stack).length > 0 ∧
            charAt (render stack) (((render stack).length : Int) - 1) = '/' :=
          ⟨rfl, render_length_pos stack, render_charAt_last stack⟩
        rw [prettify_loop, if_pos hcond, ih cs stack hst (by simp at hf; omega)]
        simp [splitSlash, refScan]
      · have hcond : ¬ (c = '/' ∧ (render stack).length > 0 ∧
            charAt (render stack) (((render stack).length : Int) - 1) = '/') :=
          fun h => hc h.1
        rw [prettify_loop, if_neg hcond, copy_segment_eq, splitSlash_eq]
        have hseg : segHead (c :: cs) ≠ [] := by simp [segHead, hc]
        have hns : '/' ∉ segHead (c :: cs) := segHead_no_slash _
        have hlt := segRest_length_lt (c :: cs) hseg
        have hlen : (c :: cs).length = cs.length + 1 := rfl
        have htail : ∀ st : List (List Char), canonStack st →
            prettify_loop fuel (segRest (c :: cs)).tail (render st)
              = refOutcome ((refScan (tailSegs (segRest (c :: cs))) st).map render) := by
          intro st hcan
          rcases segRest_cases (c :: cs) with hr | ⟨r, hr⟩
          · rw [hr]
            obtain ⟨f, hf2⟩ : ∃ f, fuel = f + 1 := ⟨fuel - 1, by omega⟩
            subst hf2
            simp [prettify_loop, tailSegs, refScan, refOutcome]
          · rw [hr] at hlt ⊢
            simp only [List.tail_cons, tailSegs]
            exact ih r st hcan (by simp at hlt; omega)
        have hnorm : ∀ st : List (List Char), canonStack st →
            prettify_loop fuel (segRest (c :: cs)) (render st)
              = refOutcome ((refScan (tailSegs (segRest (c :: cs))) st).map render) := by
          intro st hcan
          rw [ih _ st hcan (by omega), refScan_segRest]
        generalize segHead (c :: cs) = seg at hseg hns
        generalize segRest (c :: cs) = rest at htail hnorm
        simp only [Bool.true_and, Nat.zero_add]
        by_cases h1 : allDots seg = true ∧ seg.length = 1
        · rw [if_pos h1]
          have hs := (allDots_length_one seg).mp h1
          subst hs
          have e : (render stack ++ ['.']).take ((render stack ++ ['.']).length - ['.'].length)
              = render stack := by simp
          rw [e, htail stack hst]
          simp [refScan]
        · rw [if_neg h1]
          by_cases h2 : allDots seg = true ∧ seg.length = 2
          · rw [if_pos h2]
            have hs := (allDots_length_two seg).mp h2
            subst hs
            have e : (render stack ++ ['.', '.']).take
                ((render stack ++ ['.', '.']).length - ['.', '.'].length) = render stack := by simp
            simp only [e]
            cases stack with
            | nil =>
              rw [retrieve_previous_root]
              simp [refScan, refOutcome]
            | cons top below =>
              have htop := hst top (by simp)
              have hbelow : canonStack below := fun s hs => hst s (by simp [hs])
              rw [retrieve_previous_render top below htop.1 htop.2.1]
              have hnn : ¬ ((((render below).length : Nat) : Int) < 0) := by omega
              simp only [hnn, if_false, Int.toNat_ofNat]
              rw [render_take_below, htail below hbelow]
              simp [refScan]
          · rw [if_neg h2]
            by_cases h3 : allDots seg = true
            · have hpos : seg.length > 0 := List.length_pos.mpr hseg
              rw [if_pos ⟨h3, hpos⟩]
              have n1 : seg ≠ ['.'] := fun h => h1 ((allDots_length_one seg).mpr h)
              have n2 : seg ≠ ['.', '.'] := fun h => h2 ((allDots_length_two seg).mpr h)
              simp [refScan, hseg, n1, n2, h3, refOutcome]
            · have hneg : ¬ (allDots seg = true ∧ seg.length > 0) := fun h => h3 h.1
              rw [if_neg hneg]
              have n1 : seg ≠ ['.'] := fun h => h1 ((allDots_length_one seg).mpr h)
              have n2 : seg ≠ ['.', '.'] := fun h => h2 ((allDots_length_two seg).mpr h)
              have hord : ordinary seg := ⟨hseg, hns, by simpa using h3⟩
              have hcan : canonStack (seg :: stack) := by
                intro s hs
                rcases List.mem_cons.mp hs with h | h
                · rw [h]; exact hord
                · exact hst s h
              have e : render stack ++ seg ++ ['/'] = render (seg :: stack) := rfl
              rw [e, hnorm (seg :: stack) hcan]
              simp [refScan, hseg, n1, n2, h3]

/-! ## The normaliser loop never runs out of fuel -/

theorem prettify_loop_total :
    ∀ (fuel : Nat) (cur out : List Char),
      2 * cur.length +
        (if cur.head? = some '/' ∧
            ¬ (out.length > 0 ∧ charAt out ((out.length : Int) - 1) = '/') then 2 else 1)
          ≤ fuel →
      prettify_loop fuel cur out ≠ none := by
  intro fuel
  induction fuel with
  | zero =>
    intro cur out h
    split at h <;> omega
  | succ fuel ih =>
    intro cur out h
    cases cur with
    | nil => simp [prettify_loop]
    | cons c cs =>
      have hlen : (c :: cs).length = cs.length + 1 := rfl
      have hle : ∀ (cur2 out2 : List Char), 2 * cur2.length + 2 ≤ fuel →
          prettify_loop fuel cur2 out2 ≠ none := by
        intro cur2 out2 h2
        apply ih
        split <;> omega
      by_cases hcond : c = '/' ∧ out.length > 0 ∧
          charAt out ((out.length : Int) - 1) = '/'
      · rw [prettify_loop, if_pos hcond]
        have hns : ¬ ((c :: cs).head? = some '/' ∧
            ¬ (out.length > 0 ∧ charAt out ((out.length : Int) - 1) = '/')) :=
          fun hh => hh.2 hcond.2
        rw [if_neg hns] at h
        exact hle cs out (by omega)
      · rw [prettify_loop, if_neg hcond, copy_segment_eq]
        have hrl := segRest_length_le (c :: cs)
        have htl : (segRest (c :: cs)).tail.length ≤ (segRest (c :: cs)).length := by
          simp
        have hbase : 2 * (c :: cs).length + 1 ≤ fuel + 1 := by
          split at h <;> omega
        simp only [Bool.true_and, Nat.zero_add]
        by_cases h1 : allDots (segHead (c :: cs)) = true ∧ (segHead (c :: cs)).length = 1
        · rw [if_pos h1]
          have hne : segHead (c :: cs) ≠ [] := by
            intro h0
            rw [h0] at h1
            simp at h1
          have hlt := segRest_length_lt (c :: cs) hne
          exact hle _ _ (by omega)
        · rw [if_neg h1]
          by_cases h2 : allDots (segHead (c :: cs)) = true ∧ (segHead (c :: cs)).length = 2
          · rw [if_pos h2]
            have hne : segHead (c :: cs) ≠ [] := by
              intro h0
              rw [h0] at h2
              simp at h2
            have hlt := segRest_length_lt (c :: cs) hne
            split
            · simp
            · split
              · simp
              · exact hle _ _ (by omega)
          · rw [if_neg h2]
            by_cases h3 : allDots (segHead (c :: cs)) = true ∧ (segHead (c :: cs)).length > 0
            · rw [if_pos h3]
              simp
            · rw [if_neg h3]
              apply ih
              have hlast : charAt (out ++ segHead (c :: cs) ++ ['/'])
                  (((out ++ segHead (c :: cs) ++ ['/']).length : Int) - 1) = '/' :=
                charAt_snoc_last _ _
              have hpos : (out ++ segHead (c :: cs) ++ ['/']).length > 0 := by simp
              have hns : ¬ ((segRest (c :: cs)).head? = some '/' ∧
                  ¬ ((out ++ segHead (c :: cs) ++ ['/']).length > 0 ∧
                    charAt (out ++ segHead (c :: cs) ++ ['/'])
                      (((out ++ segHead (c :: cs) ++ ['/']).length : Int) - 1) = '/')) :=
                fun hh => hh.2 ⟨hpos, hlast⟩
              rw [if_neg hns]
              by_cases hseg : segHead (c :: cs) = []
              · have hc : c = '/' := by
                  by_contra hc
                  simp [segHead, hc] at hseg
                have hstuck : (c :: cs).head? = some '/' ∧
                    ¬ (out.length > 0 ∧ charAt out ((out.length : Int) - 1) = '/') :=
                  ⟨by simp [hc], fun hh => hcond ⟨hc, hh⟩⟩
                rw [if_pos hstuck] at h
                omega
              · have hlt := segRest_length_lt (c :: cs) hseg
                omega

/-- The normaliser returns on every path, in every environment. -/
theorem dir_path_total (env : Env) (size : Nat) (p : List Char) :
    gitfo_prettify_dir_path env size p ≠ none := by
  unfold gitfo_prettify_dir_path
  simp only
  split
  · split
    · simp
    · exact prettify_loop_total _ _ _ (by split <;> omega)
  · exact prettify_loop_total _ _ _ (by split <;> omega)

/-! ## Rooted paths -/

theorem root_offset_rooted (cs : List Char) : retrieve_path_root_offset ('/' :: cs) = 0 := rfl

theorem rooted_cons (p : List Char) (h : p.head? = some '/') : ∃ cs, p = '/' :: cs := by
  cases p with
  | nil => simp at h
  | cons c cs =>
    simp at h
    exact ⟨cs, by rw [h]⟩

/-- On a rooted path the normaliser is the reference scan from the empty
stack, whatever the capacity and the working directory. -/
theorem dir_path_rooted (env : Env) (size : Nat) (p : List Char)
    (hroot : p.head? = some '/') :
    gitfo_prettify_dir_path env size p
      = refOutcome ((refScan (splitSlash p) []).map render) := by
  obtain ⟨cs, rfl⟩ := rooted_cons p hroot
  unfold gitfo_prettify_dir_path
  simp only [root_offset_rooted, lt_irrefl, if_false]
  have hfuel : 2 * ('/' :: cs).length + 2 = (2 * ('/' :: cs).length + 1) + 1 := rfl
  rw [hfuel, prettify_loop]
  have hcond : ¬ ('/' = '/' ∧ ([] : List Char).length > 0 ∧
      charAt [] ((([] : List Char).length : Int) - 1) = '/') := by
    simp
  rw [if_neg hcond, copy_segment_eq]
  have h1 : segHead ('/' :: cs) = [] := by simp [segHead]
  have h2 : segRest ('/' :: cs) = '/' :: cs := by simp [segRest]
  rw [h1, h2]
  have h3 : prettify_loop (2 * ('/' :: cs).length + 1) ('/' :: cs) (render [])
      = refOutcome ((refScan (splitSlash ('/' :: cs)) []).map render) :=
    prettify_loop_render _ _ [] (by intro s hs; simp at hs) (le_refl _)
  simpa [allDots, render] using h3

/-- On a path that is not rooted the normaliser is the reference scan started
from the stack of the working directory, when `gitfo_getcwd` delivers a
canonical directory. -/
theorem dir_path_seeded (env : Env) (size : Nat) (p : List Char)
    (stack : List (List Char)) (hcan : canonStack stack)
    (hroot : p.head? ≠ some '/')
    (hcwd : gitfo_getcwd env size = Except.ok (render stack)) :
    gitfo_prettify_dir_path env size p
      = refOutcome ((refScan (splitSlash p) stack).map render) := by
  have hoff : retrieve_path_root_offset p = -1 := by
    cases p with
    | nil => rfl
    | cons c cs =>
      have hc : c ≠ '/' := by simpa using hroot
      unfold retrieve_path_root_offset charAt
      simp [hc]
  unfold gitfo_prettify_dir_path
  simp only [hoff, hcwd]
  have hneg : (-1 : Int) < 0 := by omega
  rw [if_pos hneg]
  exact prettify_loop_render _ _ stack hcan (by omega)

/-! ## Facts on the reference scan -/

theorem refScan_ordinary (seg : List Char) (h : ordinary seg)
    (segs stack : List (List Char)) :
    refScan (seg :: segs) stack = refScan segs (seg :: stack) := by
  have n1 : seg ≠ ['.'] := by
    rintro rfl
    exact absurd h.2.2 (by decide)
  have n2 : seg ≠ ['.', '.'] := by
    rintro rfl
    exact absurd h.2.2 (by decide)
  simp [refScan, h.1, n1, n2, h.2.2]

theorem refScan_push_all (segs : List (List Char)) (hall : ∀ s ∈ segs, ordinary s) :
    ∀ (rest stack : List (List Char)),
      refScan (segs ++ rest) stack = refScan rest (segs.reverse ++ stack) := by
  induction segs with
  | nil => intro rest stack; rfl
  | cons s ss ih =>
    intro rest stack
    have hs : ordinary s := hall s (by simp)
    have hss : ∀ t ∈ ss, ordinary t := fun t ht => hall t (by simp [ht])
    rw [List.cons_append, refScan_ordinary s hs, ih hss]
    simp

theorem refScan_pop_all (n : Nat) :
    ∀ (top rest stack : List (List Char)), top.length = n →
      refScan (List.replicate n ['.', '.'] ++ rest) (top ++ stack) = refScan rest stack := by
  induction n with
  | zero =>
    intro top rest stack h
    have : top = [] := List.length_eq_zero.mp h
    subst this
    rfl
  | succ n ih =>
    intro top rest stack h
    cases top with
    | nil => simp at h
    | cons t ts =>
      have hts : ts.length = n := by simpa using h
      have e : List.replicate (n + 1) ['.', '.'] ++ rest
          = ['.', '.'] :: (List.replicate n ['.', '.'] ++ rest) := rfl
      rw [e]
      simp only [refScan, List.cons_append]
      simpa using ih ts rest stack hts

theorem refScan_triple_dot (bad : List Char) (hdots : allDots bad = true)
    (hlen : 3 ≤ bad.length) :
    ∀ (segs stack : List (List Char)), bad ∈ segs → refScan segs stack = none := by
  have n0 : bad ≠ [] := by
    rintro rfl
    simp at hlen
  have n1 : bad ≠ ['.'] := by
    rintro rfl
    simp at hlen
  have n2 : bad ≠ ['.', '.'] := by
    rintro rfl
    simp at hlen
  intro segs
  induction segs with
  | nil => intro stack h; simp at h
  | cons s ss ih =>
    intro stack h
    rcases List.mem_cons.mp h with h | h
    · subst h
      simp [refScan, n0, n1, n2, hdots]
    · unfold refScan
      split
      · exact ih _ h
      · split
        · cases stack with
          | nil => rfl
          | cons t ts => exact ih _ h
        · split
          · rfl
          · exact ih _ h

theorem splitSlash_no_slash (p : List Char) : ∀ s ∈ splitSlash p, '/' ∉ s := by
  induction p with
  | nil => simp [splitSlash]
  | cons c cs ih =>
    by_cases hc : c = '/'
    · simp only [splitSlash, hc, if_true]
      intro s hs
      rcases List.mem_cons.mp hs with h | h
      · simp [h]
      · exact ih s h
    · simp only [splitSlash, hc, if_false]
      have hc2 : ¬ ('/' = c) := fun h => hc h.symm
      split
      · intro s hs
        simp at hs
        simp [hs, hc2]
      · rename_i t ts heq
        rw [heq] at ih
        intro s hs
        rcases List.mem_cons.mp hs with h | h
        · have := ih t (by simp)
          simp [h, hc2, this]
        · exact ih s (by simp [h])

theorem refScan_canon :
    ∀ (segs stack result : List (List Char)), (∀ s ∈ segs, '/' ∉ s) → canonStack stack →
      refScan segs stack = some result → canonStack result := by
  intro segs
  induction segs with
  | nil =>
    intro stack result _ hst h
    simp [refScan] at h
    rw [← h]
    exact hst
  | cons s ss ih =>
    intro stack result hns hst h
    have hss : ∀ t ∈ ss, '/' ∉ t := fun t ht => hns t (by simp [ht])
    unfold refScan at h
    split at h
    · exact ih _ _ hss hst h
    · rename_i hne
      split at h
      · cases stack with
        | nil => simp at h
        | cons t ts =>
          exact ih _ _ hss (fun u hu => hst u (by simp [hu])) h
      · split at h
        · simp at h
        · rename_i hnd
          have hord : ordinary s := by
            refine ⟨fun h0 => hne (Or.inl h0), hns s (by simp), ?_⟩
            simpa using hnd
          refine ih _ _ hss ?_ h
          intro u hu
          rcases List.mem_cons.mp hu with h1 | h1
          · rw [h1]; exact hord
          · exact hst u h1

theorem splitSlash_segment (s r : List Char) (h : '/' ∉ s) :
    splitSlash (s ++ '/' :: r) = s :: splitSlash r := by
  induction s with
  | nil => simp [splitSlash]
  | cons c cs ih =>
    have hc : c ≠ '/' := by
      intro hc
      apply h
      simp [hc]
    have hcs : '/' ∉ cs := by
      intro hcs
      apply h
      simp [hcs]
    have e : splitSlash (c :: (cs ++ '/' :: r))
        = (match splitSlash (cs ++ '/' :: r) with
          | [] => [[c]]
          | s :: ss => (c :: s) :: ss) := by
      simp [splitSlash, hc]
    rw [List.cons_append, e, ih hcs]

theorem splitSlash_render (stack : List (List Char)) (hcan : canonStack stack) :
    ∀ t : List Char,
      splitSlash (render stack ++ t) = [] :: (stack.reverse ++ splitSlash t) := by
  induction stack with
  | nil =>
    intro t
    simp [render, splitSlash]
  | cons seg below ih =>
    intro t
    have hseg := hcan seg (by simp)
    have hbelow : canonStack below := fun s hs => hcan s (by simp [hs])
    have e : render (seg :: below) ++ t = render below ++ (seg ++ '/' :: t) := by
      simp [render, List.append_assoc]
    rw [e, ih hbelow, splitSlash_segment seg t hseg.2.1]
    simp

/-- A canonical directory is a fixed point of the reference scan. -/
theorem refScan_render (stack : List (List Char)) (hcan : canonStack stack) :
    refScan (splitSlash (render stack)) [] = some stack := by
  have h := splitSlash_render stack hcan []
  rw [List.append_nil] at h
  rw [h]
  have hall : ∀ s ∈ stack.reverse, ordinary s := fun s hs => hcan s (by simpa using hs)
  have e : refScan ([] :: (stack.reverse ++ splitSlash [])) []
      = refScan (stack.reverse ++ splitSlash []) [] := by
    simp [refScan]
  rw [e, refScan_push_all _ hall]
  simp [splitSlash, refScan]

/-! ## The folder suffix test of `gitfo_prettify_file_path` -/

theorem drop_take_eq_iff_suffix (path s : List Char) (hlen : s.length ≤ path.length) :
    (path.drop (path.length - s.length)).take s.length = s ↔ s <:+ path := by
  constructor
  · intro h
    have hd : (path.drop (path.length - s.length)).length = s.length := by
      simp
      omega
    have h2 : path.drop (path.length - s.length) = s := by
      have h3 : (path.drop (path.length - s.length)).take s.length
          = path.drop (path.length - s.length) := by
        exact List.take_of_length_le (le_of_eq hd)
      rw [← h3]
      exact h
    have h4 := List.take_append_drop (path.length - s.length) path
    rw [h2] at h4
    exact ⟨path.take (path.length - s.length), h4⟩
  · rintro ⟨q, rfl⟩
    simp

theorem strncmp_suffix_one (path : List Char) (h : path.length > 1) :
    strncmp_eq (path.drop (path.length - 1)) ['/', '.', '.'] 1 = true ↔ ['/'] <:+ path := by
  have h1 := drop_take_eq_iff_suffix path ['/'] (by simp; omega)
  simpa [strncmp_eq] using h1

theorem strncmp_suffix_two (path : List Char) (h : path.length > 2) :
    strncmp_eq (path.drop (path.length - 2)) ['/', '.', '.'] 2 = true
      ↔ ['/', '.'] <:+ path := by
  have h1 := drop_take_eq_iff_suffix path ['/', '.'] (by simp; omega)
  simpa [strncmp_eq] using h1

theorem strncmp_suffix_three (path : List Char) (h : path.length > 3) :
    strncmp_eq (path.drop (path.length - 3)) ['/', '.', '.'] 3 = true
      ↔ ['/', '.', '.'] <:+ path := by
  have h1 := drop_take_eq_iff_suffix path ['/', '.', '.'] (by simp; omega)
  simpa [strncmp_eq] using h1

/-- The loop of the source finds a folder suffix exactly when the path is
longer than the suffix it ends with. -/
theorem folder_suffix_loop_iff (path : List Char) :
    folder_suffix_loop path 3 1 = true ↔
      (path.length > 1 ∧ ['/'] <:+ path) ∨ (path.length > 2 ∧ ['/', '.'] <:+ path) ∨
      (path.length > 3 ∧ ['/', '.', '.'] <:+ path) := by
  by_cases h1 : path.length > 1
  · by_cases a1 : ['/'] <:+ path
    · have := (strncmp_suffix_one path h1).mpr a1
      simp [folder_suffix_loop, h1, this, a1]
    · have n1 : ¬ (strncmp_eq (path.drop (path.length - 1)) ['/', '.', '.'] 1 = true) :=
        fun h => a1 ((strncmp_suffix_one path h1).mp h)
      by_cases h2 : path.length > 2
      · by_cases a2 : ['/', '.'] <:+ path
        · have := (strncmp_suffix_two path h2).mpr a2
          simp [folder_suffix_loop, h1, h2, n1, this, a2]
        · have n2 : ¬ (strncmp_eq (path.drop (path.length - 2)) ['/', '.', '.'] 2 = true) :=
            fun h => a2 ((strncmp_suffix_two path h2).mp h)
          by_cases h3 : path.length > 3
          · by_cases a3 : ['/', '.', '.'] <:+ path
            · have := (strncmp_suffix_three path h3).mpr a3
              simp [folder_suffix_loop, h1, h2, h3, n1, n2, this, a3]
            · have n3 : ¬ (strncmp_eq (path.drop (path.length - 3)) ['/', '.', '.'] 3
                  = true) :=
                fun h => a3 ((strncmp_suffix_three path h3).mp h)
              simp [folder_suffix_loop, h1, h2, h3, n1, n2, n3, a1, a2, a3]
          · have h3b : ¬ (path.length > 3) := h3
            simp [folder_suffix_loop, h1, h2, h3b, n1, n2, a1, a2]
      · have h3 : ¬ (path.length > 3) := by omega
        simp [folder_suffix_loop, h1, h2, h3, n1, a1]
  · have h2 : ¬ (path.length > 2) := by omega
    have h3 : ¬ (path.length > 3) := by omega
    simp [folder_suffix_loop, h1, h2, h3]

/-! ## Components of a path -/

theorem splitSlash_append_slash (a x : List Char) :
    splitSlash (a ++ '/' :: x) = splitSlash a ++ splitSlash x := by
  induction a with
  | nil => simp [splitSlash]
  | cons c cs ih =>
    by_cases hc : c = '/'
    · simp [splitSlash, hc, ih]
    · have e1 : splitSlash (c :: (cs ++ '/' :: x))
          = (match splitSlash (cs ++ '/' :: x) with
            | [] => [[c]]
            | s :: ss => (c :: s) :: ss) := by
        simp [splitSlash, hc]
      have e2 : splitSlash (c :: cs)
          = (match splitSlash cs with
            | [] => [[c]]
            | s :: ss => (c :: s) :: ss) := by
        simp [splitSlash, hc]
      rw [List.cons_append, e1, e2, ih]
      cases h : splitSlash cs with
      | nil => exact absurd h (splitSlash_ne_nil cs)
      | cons s ss => rfl

theorem splitSlash_no_sep (s : List Char) (h : '/' ∉ s) : splitSlash s = [s] := by
  induction s with
  | nil => rfl
  | cons c cs ih =>
    have hc : c ≠ '/' := by
      intro hc
      apply h
      simp [hc]
    have hcs : '/' ∉ cs := by
      intro hcs
      apply h
      simp [hcs]
    have e : splitSlash (c :: cs)
        = (match splitSlash cs with
          | [] => [[c]]
          | s :: ss => (c :: s) :: ss) := by
      simp [splitSlash, hc]
    rw [e, ih hcs]

theorem components_append_slash (a x : List Char) :
    components (a ++ '/' :: x) = components a ++ components x := by
  simp [components, splitSlash_append_slash]

theorem components_nil : components [] = [] := rfl

theorem components_snoc_slash (a : List Char) : components (a ++ ['/']) = components a := by
  rw [components_append_slash, components_nil, List.append_nil]

theorem components_segment (seg : List Char) (hne : seg ≠ []) (hns : '/' ∉ seg) :
    components seg = [seg] := by
  simp [components, splitSlash_no_sep seg hns, hne]

/-- Behind a part of the path that is empty or ends with a separator the
components are those of the part followed by those of the rest. -/
theorem components_after (done x : List Char)
    (hd : done = [] ∨ ∃ a, done = a ++ ['/']) :
    components (done ++ x) = components done ++ components x := by
  rcases hd with rfl | ⟨a, rfl⟩
  · simp [components_nil]
  · have e : a ++ ['/'] ++ x = a ++ '/' :: x := by simp
    rw [e, components_append_slash, components_snoc_slash]

/-! ## Walks -/

theorem walk_append (fs : FS) (cs ds : List (List Char)) :
    ∀ loc mid, walk fs loc cs = Except.ok mid → walk fs loc (cs ++ ds) = walk fs mid ds := by
  induction cs with
  | nil =>
    intro loc mid h
    simp [walk] at h
    rw [h]
    rfl
  | cons c cs ih =>
    intro loc mid h
    rw [List.cons_append]
    unfold walk at h
    conv_lhs => unfold walk
    cases hk : kindAt fs loc with
    | none => rw [hk] at h; simp at h
    | some k =>
      cases k with
      | file => rw [hk] at h; simp at h
      | dir =>
        rw [hk] at h
        exact ih _ _ h

theorem walk_append_ok (fs : FS) (cs ds : List (List Char)) :
    ∀ loc final, walk fs loc (cs ++ ds) = Except.ok final →
      ∃ mid, walk fs loc cs = Except.ok mid ∧ walk fs mid ds = Except.ok final := by
  induction cs with
  | nil =>
    intro loc final h
    exact ⟨loc, rfl, h⟩
  | cons c cs ih =>
    intro loc final h
    rw [List.cons_append] at h
    unfold walk at h
    cases hk : kindAt fs loc with
    | none => rw [hk] at h; simp at h
    | some k =>
      cases k with
      | file => rw [hk] at h; simp at h
      | dir =>
        rw [hk] at h
        obtain ⟨mid, h1, h2⟩ := ih _ _ h
        refine ⟨mid, ?_, h2⟩
        unfold walk
        rw [hk]
        exact h1

theorem walk_mono (fs fs1 : FS)
    (hkeep : ∀ loc k, kindAt fs loc = some k → kindAt fs1 loc = some k)
    (cs : List (List Char)) :
    ∀ loc final, walk fs loc cs = Except.ok final → walk fs1 loc cs = Except.ok final := by
  induction cs with
  | nil =>
    intro loc final h
    exact h
  | cons c cs ih =>
    intro loc final h
    unfold walk at h ⊢
    cases hk : kindAt fs loc with
    | none => rw [hk] at h; simp at h
    | some k =>
      cases k with
      | file => rw [hk] at h; simp at h
      | dir =>
        rw [hk] at h
        rw [hkeep loc dir hk]
        exact ih _ _ h

/-- A walk that ends on a directory started on a directory. -/
theorem walk_start_dir (fs : FS) (cs : List (List Char)) (loc final : List (List Char))
    (h : walk fs loc cs = Except.ok final) (hfinal : kindAt fs final = some dir) :
    kindAt fs loc = some dir := by
  cases cs with
  | nil =>
    simp [walk] at h
    rw [h]
    exact hfinal
  | cons c cs =>
    unfold walk at h
    cases hk : kindAt fs loc with
    | none => rw [hk] at h; simp at h
    | some k =>
      cases k with
      | file => rw [hk] at h; simp at h
      | dir => rfl

theorem walk_single (fs : FS) (loc : List (List Char)) (c : List Char)
    (h : kindAt fs loc = some dir) :
    walk fs loc [c] = Except.ok (stepInto loc c) := by
  simp [walk, h]

theorem wellFormed_tail (fs : FS) (hwf : wellFormed fs) (loc : List (List Char))
    (h : kindAt fs loc = some dir) : kindAt fs loc.tail = some dir := by
  cases loc with
  | nil => exact h
  | cons c l =>
    apply hwf c l
    rw [h]
    simp

/-! ## One iteration of the `gitfo_mkdir_recurs` loop -/

theorem stepInto_name (loc : List (List Char)) (c : List Char)
    (h1 : c ≠ ['.']) (h2 : c ≠ ['.', '.']) : stepInto loc c = c :: loc := by
  simp [stepInto, h1, h2]

/-- Creating the directory `done ++ seg` below a walked directory either
succeeds or reports `EEXIST`; afterwards the component names a directory. -/
theorem mkdir_step (fs0 fs : FS) (done seg : List Char) (loc : List (List Char))
    (hg : Grown fs0 fs)
    (hwalk : walk fs [] (components done) = Except.ok loc)
    (hdir : kindAt fs loc = some dir)
    (hne : seg ≠ []) (hns : '/' ∉ seg)
    (hd : done = [] ∨ ∃ a, done = a ++ ['/'])
    (hroot : (done ++ seg).head? = some '/')
    (hnf : kindAt fs0 (stepInto loc seg) ≠ some file) :
    ∃ fs1, (mkdir fs (done ++ seg) = Except.ok fs1 ∨
        (mkdir fs (done ++ seg) = Except.error EEXIST ∧ fs1 = fs)) ∧
      Grown fs0 fs1 ∧ walk fs1 [] (components done) = Except.ok loc ∧
      kindAt fs1 loc = some dir ∧ kindAt fs1 (stepInto loc seg) = some dir := by
  have hcomp : (components (done ++ seg)).reverse = seg :: (components done).reverse := by
    rw [components_after done seg hd, components_segment seg hne hns]
    simp
  have hstart : startLoc fs (done ++ seg) = [] := by simp [startLoc, hroot]
  have hmk : mkdir fs (done ++ seg) =
      (if seg = ['.'] ∨ seg = ['.', '.'] then Except.error EEXIST
        else if kindAt fs (seg :: loc) ≠ none then Except.error EEXIST
        else if fs.denied loc = true then Except.error EACCES
        else Except.ok
          { fs with entry := fun l => if l = seg :: loc then some dir else fs.entry l }) := by
    unfold mkdir
    rw [hcomp]
    simp only [List.reverse_reverse, hstart, hwalk, hdir]
  by_cases hdot : seg = ['.'] ∨ seg = ['.', '.']
  · refine ⟨fs, Or.inr ⟨by rw [hmk, if_pos hdot], rfl⟩, hg, hwalk, hdir, ?_⟩
    rcases hdot with h | h
    · subst h
      simpa [stepInto] using hdir
    · subst h
      simpa [stepInto] using wellFormed_tail fs hg.wf loc hdir
  · have h1 : seg ≠ ['.'] := fun h => hdot (Or.inl h)
    have h2 : seg ≠ ['.', '.'] := fun h => hdot (Or.inr h)
    rw [stepInto_name loc seg h1 h2] at hnf ⊢
    by_cases hex : kindAt fs (seg :: loc) ≠ none
    · refine ⟨fs, Or.inr ⟨by rw [hmk, if_neg hdot, if_pos hex], rfl⟩, hg, hwalk, hdir, ?_⟩
      cases hk : kindAt fs (seg :: loc) with
      | none => exact absurd hk hex
      | some k =>
        cases k with
        | dir => rfl
        | file => exact absurd (hg.nofile _ hk) hnf
    · have hex2 : kindAt fs (seg :: loc) = none := by
        by_contra h
        exact hex h
      have hden : ¬ (fs.denied loc = true) := by
        rw [hg.perm loc]
        simp
      have hkind : ∀ l, kindAt
          { fs with entry := fun l => if l = seg :: loc then some dir else fs.entry l } l
            = if l = seg :: loc then some dir else kindAt fs l := by
        intro l
        by_cases hl : l = seg :: loc
        · subst hl
          simp [kindAt]
        · by_cases hl0 : l = []
          · subst hl0
            simp [kindAt]
          · simp [kindAt, hl, hl0]
      have hkeep : ∀ l k, kindAt fs l = some k → kindAt
          { fs with entry := fun l => if l = seg :: loc then some dir else fs.entry l } l
            = some k := by
        intro l k hl
        rw [hkind]
        by_cases hl2 : l = seg :: loc
        · subst hl2
          rw [hex2] at hl
          simp at hl
        · rw [if_neg hl2]
          exact hl
      refine ⟨_, Or.inl (by rw [hmk, if_neg hdot, if_neg hex, if_neg hden]), ?_,
        walk_mono fs _ hkeep _ _ _ hwalk, hkeep _ _ hdir, ?_⟩
      · refine ⟨?_, hg.perm, fun l k h => hkeep l k (hg.keeps l k h), ?_⟩
        · intro c l hcl
          rw [hkind] at hcl
          by_cases hl : c :: l = seg :: loc
          · have hl2 : l = loc := (List.cons.inj hl).2
            rw [hl2]
            exact hkeep _ _ hdir
          · rw [if_neg hl] at hcl
            exact hkeep _ _ (hg.wf c l hcl)
        · intro l hl
          rw [hkind] at hl
          by_cases hl2 : l = seg :: loc
          · rw [if_pos hl2] at hl
            simp at hl
          · rw [if_neg hl2] at hl
            exact hg.nofile l hl
      · rw [hkind]
        simp

theorem charAt_last_slash (path : List Char)
    (h : charAt path ((path.length : Int) - 1) = '/') :
    path = path.take (path.length - 1) ++ ['/'] := by
  rcases List.eq_nil_or_concat path with h0 | ⟨a, c, h0⟩
  · subst h0
    exact absurd h (by decide)
  · have h1 : path = a ++ [c] := by simpa using h0
    subst h1
    rw [charAt_snoc_last] at h
    subst h
    simp

/-- A successful `gitfo_isdir` on a rooted path: the walk of its components
from the root ends on a directory. -/
theorem isdir_walk (fs : FS) (path : List Char) (hroot : path.head? = some '/')
    (h : gitfo_isdir fs path = Except.ok ()) :
    ∃ final, walk fs [] (components path) = Except.ok final ∧ kindAt fs final = some dir := by
  have key : ∀ x : List Char, components x = components path → (x = [] ∨ x.head? = some '/') →
      stat fs x = Except.ok dir →
      ∃ final, walk fs [] (components path) = Except.ok final ∧
        kindAt fs final = some dir := by
    intro x hx hxr hs
    unfold stat at hs
    by_cases hx0 : x = []
    · simp [hx0] at hs
    · have hxroot : x.head? = some '/' := by
        rcases hxr with h1 | h1
        · exact absurd h1 hx0
        · exact h1
      have hstart : startLoc fs x = [] := by simp [startLoc, hxroot]
      rw [if_neg hx0, hstart, hx] at hs
      cases hw : walk fs [] (components path) with
      | error e => rw [hw] at hs; simp at hs
      | ok final =>
        rw [hw] at hs
        refine ⟨final, rfl, ?_⟩
        simp only [] at hs
        cases hk : kindAt fs final with
        | none => rw [hk] at hs; simp at hs
        | some k =>
          rw [hk] at hs
          simp at hs
          rw [hs]
  unfold gitfo_isdir at h
  by_cases hc : charAt path ((path.length : Int) - 1) = '/'
  · simp only [hc, if_true] at h
    have hp := charAt_last_slash path hc
    have hcomp : components (path.take (path.length - 1)) = components path := by
      conv_rhs => rw [hp]
      rw [components_snoc_slash]
    have hxr : path.take (path.length - 1) = [] ∨
        (path.take (path.length - 1)).head? = some '/' := by
      cases hx : path.take (path.length - 1) with
      | nil => exact Or.inl rfl
      | cons c cs =>
        right
        rw [hp, hx] at hroot
        simpa using hroot
    cases hs : stat fs (path.take (path.length - 1)) with
    | error e => rw [hs] at h; simp at h
    | ok k =>
      rw [hs] at h
      by_cases hk : k = dir
      · subst hk
        exact key _ hcomp hxr hs
      · simp [hk] at h
  · simp only [hc, if_false] at h
    cases hs : stat fs path with
    | error e => rw [hs] at h; simp at h
    | ok k =>
      rw [hs] at h
      by_cases hk : k = dir
      · subst hk
        exact key path rfl (Or.inr hroot) hs
      · simp [hk] at h

/-- When the whole path is a directory, so is the component at the separator
that the loop has reached. -/
theorem isdir_step (fs : FS) (path done seg rest : List Char) (loc : List (List Char))
    (hroot : path.head? = some '/')
    (hisdir : gitfo_isdir fs path = Except.ok ())
    (hpath : path = done ++ seg ++ '/' :: rest)
    (hne : seg ≠ []) (hns : '/' ∉ seg)
    (hd : done = [] ∨ ∃ a, done = a ++ ['/'])
    (hwalk : walk fs [] (components done) = Except.ok loc) :
    kindAt fs (stepInto loc seg) = some dir := by
  obtain ⟨final, hw, hk⟩ := isdir_walk fs path hroot hisdir
  have hcomp : components path = components done ++ ([seg] ++ components rest) := by
    rw [hpath, components_append_slash, components_after done seg hd,
      components_segment seg hne hns]
    simp
  rw [hcomp] at hw
  obtain ⟨mid, h1, h2⟩ := walk_append_ok fs _ _ _ _ hw
  rw [hwalk] at h1
  have hmid : mid = loc := by
    injection h1 with h1
    exact h1.symm
  subst hmid
  obtain ⟨mid2, h3, h4⟩ := walk_append_ok fs _ _ _ _ h2
  have hloc : kindAt fs mid = some dir := walk_start_dir fs _ _ _ h2 hk
  rw [walk_single fs mid seg hloc] at h3
  have hmid2 : mid2 = stepInto mid seg := by
    injection h3 with h3
    exact h3.symm
  subst hmid2
  exact walk_start_dir fs _ _ _ h4 hk

/-! ## The loop of `gitfo_mkdir_recurs` on a path that ends with a separator -/

theorem getLast_no_slash (done seg : List Char) (hns : '/' ∉ seg)
    (h : (done ++ seg).getLast? = some '/') : seg = [] := by
  rcases List.eq_nil_or_concat seg with h0 | ⟨a, c, h0⟩
  · exact h0
  · have h1 : seg = a ++ [c] := by simpa using h0
    subst h1
    rw [← List.append_assoc, List.getLast?_append] at h
    simp at h
    exfalso
    apply hns
    simp [h]

theorem mkdir_loop_spec (fs0 : FS) (path : List Char) (hroot : path.head? = some '/')
    (hlast : path.getLast? = some '/')
    (hfiles : ∀ q ∈ path.inits, q.getLast? = some '/' → kindAt fs0 (lexLoc q) ≠ some file) :
    ∀ (rest done seg : List Char) (fs : FS),
      path = done ++ seg ++ rest → '/' ∉ seg →
      ((done = [] ∧ seg = []) ∨ ∃ a, done = a ++ ['/']) →
      Grown fs0 fs → walk fs [] (components done) = Except.ok (lexLoc done) →
      kindAt fs (lexLoc done) = some dir →
      ∃ fs1, mkdir_recurs_loop path done seg rest fs = (none, fs1) ∧ Grown fs0 fs1 ∧
        walk fs1 [] (components path) = Except.ok (lexLoc path) ∧
        kindAt fs1 (lexLoc path) = some dir := by
  intro rest
  induction rest with
  | nil =>
    intro done seg fs hpath hns _ hg hwalk hdir
    rw [List.append_nil] at hpath
    have hseg : seg = [] := getLast_no_slash done seg hns (by rw [← hpath]; exact hlast)
    subst hseg
    rw [List.append_nil] at hpath
    subst hpath
    refine ⟨fs, ?_, hg, hwalk, hdir⟩
    unfold mkdir_recurs_loop
    simp [hlast]
  | cons c rest ih =>
    intro done seg fs hpath hns hform hg hwalk hdir
    by_cases hc : c = '/'
    · subst hc
      have hd : done = [] ∨ ∃ a, done = a ++ ['/'] := by
        rcases hform with h | h
        · exact Or.inl h.1
        · exact Or.inr h
      have hpath2 : path = (done ++ seg ++ ['/']) ++ [] ++ rest := by
        rw [hpath]
        simp
      have hform2 : ((done ++ seg ++ ['/']) = [] ∧ ([] : List Char) = []) ∨
          ∃ a, done ++ seg ++ ['/'] = a ++ ['/'] := Or.inr ⟨done ++ seg, rfl⟩
      have hcomp : components (done ++ seg ++ ['/']) = components done ++ components seg := by
        rw [components_snoc_slash, components_after done seg hd]
      by_cases hseg : seg = []
      · have hcond : ¬ (seg ≠ [] ∧ gitfo_isdir fs path ≠ Except.ok ()) := fun h => h.1 hseg
        unfold mkdir_recurs_loop
        rw [if_pos rfl, if_neg hcond]
        have hcomp2 : components (done ++ seg ++ ['/']) = components done := by
          rw [hcomp, hseg, components_nil, List.append_nil]
        have hlex : lexLoc (done ++ seg ++ ['/']) = lexLoc done := by
          unfold lexLoc
          rw [hcomp2]
        exact ih _ [] fs hpath2 (by simp) hform2 hg (by rw [hcomp2, hlex]; exact hwalk)
          (by rw [hlex]; exact hdir)
      · have hcomp2 : components (done ++ seg ++ ['/']) = components done ++ [seg] := by
          rw [hcomp, components_segment seg hseg hns]
        have hlex : lexLoc (done ++ seg ++ ['/']) = stepInto (lexLoc done) seg := by
          unfold lexLoc
          rw [hcomp2, List.foldl_append]
          rfl
        have hwalk2 : ∀ fs2 : FS, walk fs2 [] (components done) = Except.ok (lexLoc done) →
            kindAt fs2 (lexLoc done) = some dir →
            walk fs2 [] (components (done ++ seg ++ ['/']))
              = Except.ok (lexLoc (done ++ seg ++ ['/'])) := by
          intro fs2 hw hk
          rw [hcomp2, walk_append fs2 _ _ _ _ hw, walk_single fs2 _ _ hk, hlex]
        have hmem : (done ++ seg ++ ['/']) ∈ path.inits := by
          rw [List.mem_inits, hpath]
          exact ⟨rest, by simp⟩
        have hnf : kindAt fs0 (stepInto (lexLoc done) seg) ≠ some file := by
          rw [← hlex]
          exact hfiles _ hmem (by simp)
        have hroot2 : (done ++ seg).head? = some '/' := by
          rw [hpath] at hroot
          cases hds : done ++ seg with
          | nil =>
            have : seg = [] := (List.append_eq_nil.mp hds).2
            exact absurd this hseg
          | cons x xs =>
            rw [List.append_assoc] at hroot
            rw [← List.append_assoc, hds] at hroot
            simpa using hroot
        by_cases hisdir : gitfo_isdir fs path = Except.ok ()
        · have hcond : ¬ (seg ≠ [] ∧ gitfo_isdir fs path ≠ Except.ok ()) :=
            fun h => h.2 hisdir
          unfold mkdir_recurs_loop
          rw [if_pos rfl, if_neg hcond]
          have hk := isdir_step fs path done seg rest (lexLoc done) hroot hisdir hpath
            hseg hns hd hwalk
          exact ih _ [] fs hpath2 (by simp) hform2 hg (hwalk2 fs hwalk hdir)
            (by rw [hlex]; exact hk)
        · have hcond : seg ≠ [] ∧ gitfo_isdir fs path ≠ Except.ok () := ⟨hseg, hisdir⟩
          unfold mkdir_recurs_loop
          rw [if_pos rfl, if_pos hcond]
          obtain ⟨fs1, hmk, hg1, hw1, hk1, hk2⟩ :=
            mkdir_step fs0 fs done seg (lexLoc done) hg hwalk hdir hseg hns hd hroot2 hnf
          rcases hmk with hmk | ⟨hmk, hfs⟩
          · rw [hmk]
            exact ih _ [] fs1 hpath2 (by simp) hform2 hg1 (hwalk2 fs1 hw1 hk1)
              (by rw [hlex]; exact hk2)
          · rw [hmk]
            subst hfs
            simp only [if_true]
            exact ih _ [] fs1 hpath2 (by simp) hform2 hg1 (hwalk2 fs1 hw1 hk1)
              (by rw [hlex]; exact hk2)
    · have hform2 : (done = [] ∧ seg ++ [c] = []) ∨ ∃ a, done = a ++ ['/'] := by
        rcases hform with h | h
        · exfalso
          rw [hpath, h.1, h.2] at hroot
          simp at hroot
          exact hc hroot
        · exact Or.inr h
      have hns2 : '/' ∉ seg ++ [c] := by
        intro h
        rcases List.mem_append.mp h with h1 | h1
        · exact hns h1
        · simp at h1
          exact hc h1.symm
      unfold mkdir_recurs_loop
      rw [if_neg hc]
      exact ih done (seg ++ [c]) fs (by rw [hpath]; simp) hns2 hform2 hg hwalk hdir

/-! ## Paths without a `..` segment: existing files are found by `stat` -/

theorem foldl_stepInto_snoc (cs : List (List Char)) (c : List Char) :
    (cs ++ [c]).foldl stepInto [] = stepInto (cs.foldl stepInto []) c := by
  rw [List.foldl_append]
  rfl

/-- In a well formed state the walk along names and `.` reaches the location
computed on the names, when that location is a directory. -/
theorem walk_lex (fs : FS) (hwf : wellFormed fs) (cs : List (List Char)) :
    ['.', '.'] ∉ cs → kindAt fs (cs.foldl stepInto []) = some dir →
      walk fs [] cs = Except.ok (cs.foldl stepInto []) := by
  induction cs using List.reverseRecOn with
  | nil =>
    intro _ _
    rfl
  | append_singleton cs c ih =>
    intro hno hk
    have hno0 : ['.', '.'] ∉ cs := fun h => hno (by simp [h])
    have hc : c ≠ ['.', '.'] := fun h => hno (by simp [h])
    rw [foldl_stepInto_snoc] at hk ⊢
    have hk0 : kindAt fs (cs.foldl stepInto []) = some dir := by
      by_cases hdot : c = ['.']
      · subst hdot
        simpa [stepInto] using hk
      · rw [stepInto_name _ c hdot hc] at hk
        apply hwf c
        rw [hk]
        simp
    rw [walk_append fs cs [c] [] _ (ih hno0 hk0), walk_single fs _ c hk0]

/-- A string splits into a part that is empty or ends with a separator, and a
last segment. -/
theorem last_segment (a : List Char) :
    ∃ done seg, a = done ++ seg ∧ '/' ∉ seg ∧ (done = [] ∨ ∃ b, done = b ++ ['/']) := by
  induction a using List.reverseRecOn with
  | nil => exact ⟨[], [], rfl, by simp, Or.inl rfl⟩
  | append_singleton a c ih =>
    by_cases hc : c = '/'
    · subst hc
      exact ⟨a ++ ['/'], [], by simp, by simp, Or.inr ⟨a, rfl⟩⟩
    · obtain ⟨done, seg, h1, h2, h3⟩ := ih
      refine ⟨done, seg ++ [c], by rw [h1]; simp, ?_, h3⟩
      intro h
      rcases List.mem_append.mp h with h4 | h4
      · exact h2 h4
      · simp at h4
        exact hc h4.symm

theorem snoc_of_getLast (q : List Char) (h : q.getLast? = some '/') :
    ∃ a, q = a ++ ['/'] := by
  rcases List.eq_nil_or_concat q with h0 | ⟨a, c, h0⟩
  · rw [h0] at h
    simp at h
  · have h1 : q = a ++ [c] := by simpa using h0
    rw [h1] at h
    simp at h
    exact ⟨a, by rw [h1, h]⟩

theorem head_of_append (x y : List Char) (hx : x ≠ [])
    (h : (x ++ y).head? = some '/') : x.head? = some '/' := by
  cases x with
  | nil => exact absurd rfl hx
  | cons c cs => simpa using h

/-- When the location named by a leading part of the path holds a regular
file, `stat` finds a regular file at some leading part. -/
theorem file_found_by_stat (fs : FS) (hwf : wellFormed fs) :
    ∀ (n : Nat) (q : List Char), q.length ≤ n → q.head? = some '/' →
      q.getLast? = some '/' → ['.', '.'] ∉ components q →
      kindAt fs (lexLoc q) = some file →
      ∃ q1, q1 <+: q ∧ q1.getLast? = some '/' ∧ stat fs q1 = Except.ok file := by
  intro n
  induction n with
  | zero =>
    intro q hlen hroot _ _ _
    have : q = [] := List.length_eq_zero.mp (by omega)
    subst this
    simp at hroot
  | succ n ih =>
    intro q hlen hroot hlast hno hfile
    obtain ⟨a, ha⟩ := snoc_of_getLast q hlast
    obtain ⟨done, seg, hds, hns, hd⟩ := last_segment a
    have hq : q = done ++ seg ++ ['/'] := by rw [ha, hds]
    have hcomp : components q = components done ++ components seg := by
      rw [hq, components_snoc_slash, components_after done seg hd]
    have hnodone : ['.', '.'] ∉ components done := by
      intro h
      apply hno
      rw [hcomp]
      simp [h]
    have hrec : kindAt fs (lexLoc done) = some file →
        ∃ q1, q1 <+: q ∧ q1.getLast? = some '/' ∧ stat fs q1 = Except.ok file := by
      intro hf
      rcases hd with h0 | ⟨b, hb⟩
      · subst h0
        have hk : kindAt fs (lexLoc []) = some dir := rfl
        rw [hk] at hf
        simp at hf
      · have hdne : done ≠ [] := by
          rw [hb]
          simp
        have hdroot : done.head? = some '/' := by
          rw [hq, List.append_assoc] at hroot
          exact head_of_append done _ hdne hroot
        have hdlen : done.length ≤ n := by
          have : q.length = done.length + seg.length + 1 := by
            rw [hq]
            simp
            omega
          omega
        obtain ⟨q1, h1, h2, h3⟩ := ih done hdlen hdroot (by rw [hb]; simp) hnodone hf
        refine ⟨q1, ?_, h2, h3⟩
        exact h1.trans ⟨seg ++ ['/'], by rw [hq]; simp⟩
    by_cases hseg : seg = []
    · apply hrec
      have : lexLoc q = lexLoc done := by
        unfold lexLoc
        rw [hcomp, hseg, components_nil, List.append_nil]
      rw [← this]
      exact hfile
    · have hcs : components seg = [seg] := components_segment seg hseg hns
      have hlex : lexLoc q = stepInto (lexLoc done) seg := by
        unfold lexLoc
        rw [hcomp, hcs, foldl_stepInto_snoc]
      have hdd : seg ≠ ['.', '.'] := by
        intro h
        apply hno
        rw [hcomp, hcs, h]
        simp
      by_cases hdot : seg = ['.']
      · apply hrec
        rw [hlex, hdot] at hfile
        simpa [stepInto] using hfile
      · rw [hlex, stepInto_name _ seg hdot hdd] at hfile
        have hk0 : kindAt fs (lexLoc done) = some dir := by
          apply hwf seg
          rw [hfile]
          simp
        have hw := walk_lex fs hwf (components done) hnodone hk0
        refine ⟨q, List.prefix_refl q, hlast, ?_⟩
        have hq0 : q ≠ [] := by
          rw [hq]
          simp
        have hstart : startLoc fs q = [] := by simp [startLoc, hroot]
        have hw2 : walk fs [] (components done ++ [seg]) = Except.ok (seg :: lexLoc done) := by
          rw [walk_append fs _ [seg] [] _ hw]
          have h5 := walk_single fs (lexLoc done) seg hk0
          rw [stepInto_name _ seg hdot hdd] at h5
          exact h5
        unfold stat
        rw [if_neg hq0, hstart, hcomp, hcs, hw2]
        simp only [hfile]

/-- On a path without a `..` segment, when every existing leading part is a
directory, no leading part names a regular file. -/
theorem no_file_on_names (fs : FS) (hwf : wellFormed fs) (path : List Char)
    (hroot : path.head? = some '/') (hno : ['.', '.'] ∉ components path)
    (hstat : ∀ q ∈ path.inits, q.getLast? = some '/' → stat fs q ≠ Except.ok file) :
    ∀ q ∈ path.inits, q.getLast? = some '/' → kindAt fs (lexLoc q) ≠ some file := by
  intro q hq hlast hfile
  obtain ⟨r, hr⟩ := (List.mem_inits q path).mp hq
  obtain ⟨a, ha⟩ := snoc_of_getLast q hlast
  have hq0 : q ≠ [] := by
    rw [ha]
    simp
  have hqroot : q.head? = some '/' := by
    rw [← hr] at hroot
    exact head_of_append q r hq0 hroot
  have hcomp : components path = components q ++ components r := by
    rw [← hr, ha, components_snoc_slash]
    have e : a ++ ['/'] ++ r = a ++ '/' :: r := by simp
    rw [e, components_append_slash]
  have hnoq : ['.', '.'] ∉ components q := by
    intro h
    apply hno
    rw [hcomp]
    simp [h]
  obtain ⟨q1, h1, h2, h3⟩ :=
    file_found_by_stat fs hwf q.length q (le_refl _) hqroot hlast hnoq hfile
  exact hstat q1 ((List.mem_inits q1 path).mpr (h1.trans ⟨r, hr⟩)) h2 h3

/-! ## Claims on `gitfo_prettify_dir_path` -/

/-- C1: on every rooted path the normaliser returns the reference resolution
(split on `/`, skip empty segments and `.`, pop on `..` and fail on an empty
stack, fail on a segment of three or more dots, push any other segment; the
output is `/` followed by each stacked segment followed by `/`).  The capacity
and the working directory play no part on a rooted path. -/
theorem prettify_dir_path_eq_reference (env : Env) (size : Nat) (p : List Char)
    (hroot : p.head? = some '/') :
    gitfo_prettify_dir_path env size p = refOutcome (refResolve p) :=
  dir_path_rooted env size p hroot

theorem prettify_dir_path_eq_reference_witness :
    "/a/./b/../c/".toList.head? = some '/' ∧
    gitfo_prettify_dir_path (envOf "/home/u".toList) 64 "/a/./b/../c/".toList
      = refOutcome (refResolve "/a/./b/../c/".toList) ∧
    refOutcome (refResolve "/a/./b/../c/".toList) = some (Except.ok "/a/c/".toList) :=
  ⟨by decide,
   prettify_dir_path_eq_reference (envOf "/home/u".toList) 64 "/a/./b/../c/".toList (by decide),
   by decide⟩

theorem splitSlash_slashJoin (segs : List (List Char)) (hall : ∀ s ∈ segs, ordinary s)
    (t : List Char) :
    splitSlash (slashJoin segs ++ t) = segs ++ splitSlash t := by
  induction segs with
  | nil => rfl
  | cons s ss ih =>
    have hs := hall s (by simp)
    have hss : ∀ u ∈ ss, ordinary u := fun u hu => hall u (by simp [hu])
    have e : slashJoin (s :: ss) ++ t = s ++ '/' :: (slashJoin ss ++ t) := by
      simp [slashJoin]
    rw [e, splitSlash_segment s _ hs.2.1, ih hss]
    rfl

theorem splitSlash_dotdots (n : Nat) :
    splitSlash (dotdots n) = List.replicate n ['.', '.'] ++ [[]] := by
  induction n with
  | zero => rfl
  | succ n ih =>
    have e : dotdots (n + 1) = ['.', '.'] ++ '/' :: dotdots n := rfl
    rw [e, splitSlash_segment _ _ (by decide), ih]
    rfl

theorem refScan_up (segs : List (List Char)) (hall : ∀ s ∈ segs, ordinary s) (n : Nat) :
    refScan (splitSlash ('/' :: (slashJoin segs ++ dotdots n))) []
      = refScan (List.replicate n ['.', '.'] ++ [[]]) segs.reverse := by
  have e : splitSlash ('/' :: (slashJoin segs ++ dotdots n))
      = [] :: splitSlash (slashJoin segs ++ dotdots n) := by
    simp [splitSlash]
  rw [e, splitSlash_slashJoin segs hall, splitSlash_dotdots]
  have e2 : refScan ([] :: (segs ++ (List.replicate n ['.', '.'] ++ [[]]))) []
      = refScan (segs ++ (List.replicate n ['.', '.'] ++ [[]])) [] := by
    simp [refScan]
  rw [e2, refScan_push_all segs hall]
  simp

theorem splitSlash_dotdots_open (n : Nat) :
    splitSlash (dotdots (n + 1)).dropLast = List.replicate (n + 1) ['.', '.'] := by
  induction n with
  | zero => rfl
  | succ n ih =>
    have e : dotdots (n + 1 + 1) = ['.', '.', '/'] ++ dotdots (n + 1) := rfl
    have hne : dotdots (n + 1) ≠ [] := by simp [dotdots]
    rw [e, List.dropLast_append_of_ne_nil _ hne]
    have e2 : ['.', '.', '/'] ++ (dotdots (n + 1)).dropLast
        = ['.', '.'] ++ '/' :: (dotdots (n + 1)).dropLast := rfl
    rw [e2, splitSlash_segment _ _ (by decide), ih]
    rfl

theorem refScan_up_open (segs : List (List Char)) (hall : ∀ s ∈ segs, ordinary s) (n : Nat) :
    refScan (splitSlash ('/' :: (slashJoin segs ++ (dotdots (n + 1)).dropLast))) []
      = refScan (List.replicate (n + 1) ['.', '.']) segs.reverse := by
  have e : splitSlash ('/' :: (slashJoin segs ++ (dotdots (n + 1)).dropLast))
      = [] :: splitSlash (slashJoin segs ++ (dotdots (n + 1)).dropLast) := by
    simp [splitSlash]
  rw [e, splitSlash_slashJoin segs hall, splitSlash_dotdots_open]
  have e2 : refScan ([] :: (segs ++ List.replicate (n + 1) ['.', '.'])) []
      = refScan (segs ++ List.replicate (n + 1) ['.', '.']) [] := by
    simp [refScan]
  rw [e2, refScan_push_all segs hall]
  simp

/-- C2: root containment.  For ordinary segments `s1 .. sn` the path
`/s1/.../sn/` followed by exactly `n` segments `..` normalises to the root
`/`, and with one more `..` the normaliser fails with `GIT_EINVALIDPATH`;
both hold whether or not a `/` follows the last `..`. -/
theorem prettify_dir_path_root_containment (env : Env) (size : Nat)
    (segs : List (List Char)) (hall : ∀ s ∈ segs, ordinary s) :
    gitfo_prettify_dir_path env size ('/' :: (slashJoin segs ++ dotdots segs.length))
      = some (Except.ok ['/']) ∧
    gitfo_prettify_dir_path env size ('/' :: (slashJoin segs ++ dotdots (segs.length + 1)))
      = some (Except.error GIT_EINVALIDPATH) ∧
    gitfo_prettify_dir_path env size
        ('/' :: (slashJoin segs ++ (dotdots segs.length).dropLast))
      = some (Except.ok ['/']) ∧
    gitfo_prettify_dir_path env size
        ('/' :: (slashJoin segs ++ (dotdots (segs.length + 1)).dropLast))
      = some (Except.error GIT_EINVALIDPATH) := by
  have hclosed : gitfo_prettify_dir_path env size
      ('/' :: (slashJoin segs ++ dotdots segs.length)) = some (Except.ok ['/']) := by
    rw [dir_path_rooted env size ('/' :: (slashJoin segs ++ dotdots segs.length)) rfl,
      refScan_up segs hall]
    have h := refScan_pop_all segs.length segs.reverse [[]] [] (by simp)
    rw [List.append_nil] at h
    rw [h]
    rfl
  have hpop : ∀ rest : List (List Char),
      refScan (List.replicate segs.length ['.', '.'] ++ rest) segs.reverse
        = refScan rest [] := by
    intro rest
    have h := refScan_pop_all segs.length segs.reverse rest [] (by simp)
    rw [List.append_nil] at h
    exact h
  refine ⟨hclosed, ?_, ?_, ?_⟩
  · rw [dir_path_rooted env size ('/' :: (slashJoin segs ++ dotdots (segs.length + 1))) rfl,
      refScan_up segs hall]
    have e : List.replicate (segs.length + 1) ['.', '.'] ++ [[]]
        = List.replicate segs.length ['.', '.'] ++ [['.', '.'], []] := by
      rw [List.replicate_succ']
      simp
    rw [e, hpop]
    rfl
  · cases hn : segs.length with
    | zero =>
      rw [hn] at hclosed
      exact hclosed
    | succ n =>
      rw [dir_path_rooted env size
        ('/' :: (slashJoin segs ++ (dotdots (n + 1)).dropLast)) rfl,
        refScan_up_open segs hall]
      have h := hpop []
      rw [List.append_nil, hn] at h
      rw [h]
      rfl
  · rw [dir_path_rooted env size
      ('/' :: (slashJoin segs ++ (dotdots (segs.length + 1)).dropLast)) rfl,
      refScan_up_open segs hall]
    have e : List.replicate (segs.length + 1) ['.', '.']
        = List.replicate segs.length ['.', '.'] ++ [['.', '.']] := by
      rw [List.replicate_succ']
    rw [e, hpop]
    rfl

theorem prettify_dir_path_root_containment_witness :
    (∀ s ∈ ["a".toList, "b.c".toList], ordinary s) ∧
    gitfo_prettify_dir_path (envOf "/home/u".toList) 64 "/a/b.c/../../".toList
      = some (Except.ok ['/']) ∧
    gitfo_prettify_dir_path (envOf "/home/u".toList) 64 "/a/b.c/../../../".toList
      = some (Except.error GIT_EINVALIDPATH) ∧
    gitfo_prettify_dir_path (envOf "/home/u".toList) 64 "/a/b.c/../..".toList
      = some (Except.ok ['/']) ∧
    gitfo_prettify_dir_path (envOf "/home/u".toList) 64 "/a/b.c/../../..".toList
      = some (Except.error GIT_EINVALIDPATH) :=
  ⟨by decide,
   prettify_dir_path_root_containment (envOf "/home/u".toList) 64
     ["a".toList, "b.c".toList] (by decide)⟩

/-- C3: triple-dot rejection.  A rooted path with a segment made only of three
or more dots, wherever the segment stands, fails with `GIT_EINVALIDPATH`. -/
theorem prettify_dir_path_triple_dot (env : Env) (size : Nat) (p bad : List Char)
    (hroot : p.head? = some '/') (hmem : bad ∈ splitSlash p)
    (hdots : allDots bad = true) (hlen : 3 ≤ bad.length) :
    gitfo_prettify_dir_path env size p = some (Except.error GIT_EINVALIDPATH) := by
  rw [dir_path_rooted env size p hroot, refScan_triple_dot bad hdots hlen _ _ hmem]
  rfl

theorem prettify_dir_path_triple_dot_witness :
    "/a/.../b/".toList.head? = some '/' ∧
    "...".toList ∈ splitSlash "/a/.../b/".toList ∧
    allDots "...".toList = true ∧ 3 ≤ "...".toList.length ∧
    gitfo_prettify_dir_path (envOf "/home/u".toList) 64 "/a/.../b/".toList
      = some (Except.error GIT_EINVALIDPATH) :=
  ⟨by decide, by decide, by decide, by decide,
   prettify_dir_path_triple_dot (envOf "/home/u".toList) 64 "/a/.../b/".toList "...".toList
     (by decide) (by decide) (by decide) (by decide)⟩

/-- C4 (failing input): with a capacity of 3 bytes the rooted path `/abc`
normalises with success although the output `/abc/` and its terminator need 6
bytes; the copy loop never compares a write position with `size`. -/
theorem prettify_dir_path_ignores_capacity :
    gitfo_prettify_dir_path (envOf "/home/u".toList) 3 "/abc".toList
      = some (Except.ok "/abc/".toList) ∧
    3 < "/abc/".toList.length + 1 := by
  decide

/-- A successful run on a rooted path returns a rendered canonical stack. -/
theorem dir_path_rooted_ok (env : Env) (size : Nat) (p out : List Char)
    (hroot : p.head? = some '/')
    (hok : gitfo_prettify_dir_path env size p = some (Except.ok out)) :
    ∃ stack, canonStack stack ∧ out = render stack := by
  rw [dir_path_rooted env size p hroot] at hok
  cases hscan : refScan (splitSlash p) [] with
  | none =>
    rw [hscan] at hok
    simp [refOutcome] at hok
  | some stack =>
    rw [hscan] at hok
    simp [refOutcome] at hok
    refine ⟨stack, ?_, hok.symm⟩
    exact refScan_canon _ _ _ (splitSlash_no_slash p) (by intro s hs; simp at hs) hscan

theorem chain_no_slash (s : List Char) (h : '/' ∉ s) :
    List.Chain' (fun a b => ¬ (a = '/' ∧ b = '/')) s := by
  induction s with
  | nil => exact List.chain'_nil
  | cons c cs ih =>
    have hc : c ≠ '/' := by
      intro hc
      apply h
      simp [hc]
    have hcs : '/' ∉ cs := by
      intro hcs
      apply h
      simp [hcs]
    refine (ih hcs).cons' ?_
    intro y _ hy
    exact hc hy.1

theorem render_chain (stack : List (List Char)) (hcan : canonStack stack) :
    List.Chain' (fun a b => ¬ (a = '/' ∧ b = '/')) (render stack) := by
  induction stack with
  | nil => exact List.chain'_singleton _
  | cons seg below ih =>
    have hseg := hcan seg (by simp)
    have hbelow : canonStack below := fun s hs => hcan s (by simp [hs])
    obtain ⟨c, cs, hcs⟩ : ∃ c cs, seg = c :: cs := by
      cases seg with
      | nil => exact absurd rfl hseg.1
      | cons c cs => exact ⟨c, cs, rfl⟩
    have hc : c ≠ '/' := by
      intro hc
      apply hseg.2.1
      simp [hcs, hc]
    have h1 : List.Chain' (fun a b => ¬ (a = '/' ∧ b = '/')) (seg ++ ['/']) := by
      refine List.Chain'.append (chain_no_slash seg hseg.2.1) (List.chain'_singleton _) ?_
      intro x hx y _ hxy
      have hxm : x ∈ seg := List.mem_of_mem_getLast? hx
      apply hseg.2.1
      rw [← hxy.1]
      exact hxm
    have e : render (seg :: below) = render below ++ (seg ++ ['/']) := by
      simp [render, List.append_assoc]
    rw [e]
    refine List.Chain'.append (ih hbelow) h1 ?_
    intro x _ y hy hxy
    rw [hcs] at hy
    simp at hy
    exact hc (hy ▸ hxy.2)

/-- C5: canonical form.  A successful result on a rooted path starts with `/`,
ends with `/` and not with `//`, has no two consecutive `/`, and none of its
segments is made only of dots. -/
theorem prettify_dir_path_canonical (env : Env) (size : Nat) (p out : List Char)
    (hroot : p.head? = some '/')
    (hok : gitfo_prettify_dir_path env size p = some (Except.ok out)) :
    out.head? = some '/' ∧ out.getLast? = some '/' ∧
    (∀ a, out ≠ a ++ ['/', '/']) ∧
    List.Chain' (fun a b => ¬ (a = '/' ∧ b = '/')) out ∧
    (∀ seg ∈ splitSlash out, seg ≠ [] → allDots seg = false) := by
  obtain ⟨stack, hcan, rfl⟩ := dir_path_rooted_ok env size p out hroot hok
  have hchain := render_chain stack hcan
  refine ⟨?_, ?_, ?_, hchain, ?_⟩
  · obtain ⟨a, ha⟩ := render_head stack
    simp [ha]
  · obtain ⟨a, ha⟩ := render_snoc stack
    simp [ha]
  · intro a ha
    rw [ha] at hchain
    have h2 := (List.chain'_append.mp hchain).2.1
    simp at h2
  · intro seg hseg hne
    have h := splitSlash_render stack hcan []
    rw [List.append_nil] at h
    rw [h] at hseg
    simp [splitSlash] at hseg
    rcases hseg with h1 | h1 | h1
    · exact absurd h1 hne
    · exact (hcan seg h1).2.2
    · exact absurd h1 hne

theorem prettify_dir_path_canonical_witness :
    "//a/./b/../c".toList.head? = some '/' ∧
    gitfo_prettify_dir_path (envOf "/home/u".toList) 64 "//a/./b/../c".toList
      = some (Except.ok "/a/c/".toList) ∧
    ("/a/c/".toList.head? = some '/' ∧ "/a/c/".toList.getLast? = some '/' ∧
      (∀ a, "/a/c/".toList ≠ a ++ ['/', '/']) ∧
      List.Chain' (fun a b => ¬ (a = '/' ∧ b = '/')) "/a/c/".toList ∧
      (∀ seg ∈ splitSlash "/a/c/".toList, seg ≠ [] → allDots seg = false)) :=
  ⟨by decide, by decide,
   prettify_dir_path_canonical (envOf "/home/u".toList) 64 "//a/./b/../c".toList
     "/a/c/".toList (by decide) (by decide)⟩

/-- A canonical directory is a fixed point of the normaliser. -/
theorem dir_path_render (env : Env) (size : Nat) (stack : List (List Char))
    (hcan : canonStack stack) :
    gitfo_prettify_dir_path env size (render stack) = some (Except.ok (render stack)) := by
  have hroot : (render stack).head? = some '/' := by
    obtain ⟨a, ha⟩ := render_head stack
    simp [ha]
  rw [dir_path_rooted env size _ hroot, refScan_render stack hcan]
  rfl

/-- C6 (counterexample): in the working directory `/tmp/...` the relative path
`a` normalises to `/tmp/.../a/`, and that result, fed back as a rooted path,
is rejected for its segment of three dots. -/
theorem prettify_dir_path_relative_not_idempotent :
    gitfo_prettify_dir_path (envOf "/tmp/...".toList) 64 "a".toList
      = some (Except.ok "/tmp/.../a/".toList) ∧
    gitfo_prettify_dir_path (envOf "/tmp/...".toList) 64 "/tmp/.../a/".toList
      = some (Except.error GIT_EINVALIDPATH) := by
  decide

/-- C6 (amended): idempotence.  When the path is rooted, or when it is
relative and `gitfo_getcwd` delivers a canonical directory (`/` followed by
ordinary segments, each followed by `/`), a successful result `r` is rooted and
normalising `r` again succeeds and returns `r`. -/
theorem prettify_dir_path_idempotent (env : Env) (size : Nat) (p r : List Char)
    (hcwd : p.head? = some '/' ∨
      ∃ stack, canonStack stack ∧ gitfo_getcwd env size = Except.ok (render stack))
    (hok : gitfo_prettify_dir_path env size p = some (Except.ok r)) :
    r.head? = some '/' ∧ gitfo_prettify_dir_path env size r = some (Except.ok r) := by
  have hrender : ∃ stack, canonStack stack ∧ r = render stack := by
    by_cases hroot : p.head? = some '/'
    · exact dir_path_rooted_ok env size p r hroot hok
    · rcases hcwd with h | ⟨seed, hseed, hget⟩
      · exact absurd h hroot
      · rw [dir_path_seeded env size p seed hseed hroot hget] at hok
        cases hscan : refScan (splitSlash p) seed with
        | none =>
          rw [hscan] at hok
          simp [refOutcome] at hok
        | some stack =>
          rw [hscan] at hok
          simp [refOutcome] at hok
          exact ⟨stack, refScan_canon _ _ _ (splitSlash_no_slash p) hseed hscan, hok.symm⟩
  obtain ⟨stack, hcan, rfl⟩ := hrender
  refine ⟨?_, dir_path_render env size stack hcan⟩
  obtain ⟨a, ha⟩ := render_head stack
  simp [ha]

theorem prettify_dir_path_idempotent_witness :
    ("x/../y".toList.head? = some '/' ∨
      ∃ stack, canonStack stack ∧
        gitfo_getcwd (envOf "/home/u".toList) 64 = Except.ok (render stack)) ∧
    gitfo_prettify_dir_path (envOf "/home/u".toList) 64 "x/../y".toList
      = some (Except.ok "/home/u/y/".toList) ∧
    "/home/u/y/".toList.head? = some '/' ∧
    gitfo_prettify_dir_path (envOf "/home/u".toList) 64 "/home/u/y/".toList
      = some (Except.ok "/home/u/y/".toList) :=
  ⟨Or.inr ⟨["u".toList, "home".toList], by decide, by decide⟩, by decide,
   prettify_dir_path_idempotent (envOf "/home/u".toList) 64 "x/../y".toList
     "/home/u/y/".toList
     (Or.inr ⟨["u".toList, "home".toList], by decide, by decide⟩) (by decide)⟩

/-! ## Claims on `gitfo_prettify_file_path` -/

theorem file_path_root (env : Env) (size : Nat) :
    gitfo_prettify_file_path env size ['/'] = some (Except.error GIT_EINVALIDPATH) := rfl

theorem file_path_root_dot (env : Env) (size : Nat) :
    gitfo_prettify_file_path env size ['/', '.'] = some (Except.error GIT_EINVALIDPATH) := rfl

theorem file_path_root_dotdot (env : Env) (size : Nat) :
    gitfo_prettify_file_path env size ['/', '.', '.'] = some (Except.error GIT_EINVALIDPATH) :=
  rfl

theorem file_path_of_loop (env : Env) (size : Nat) (p : List Char)
    (h : folder_suffix_loop p 3 1 = true) :
    gitfo_prettify_file_path env size p = some (Except.error GIT_EINVALIDPATH) := by
  unfold gitfo_prettify_file_path
  simp only [h, if_true]
  split <;> rfl

theorem suffix_length_cases (s p : List Char) (h : s <:+ p) :
    p.length > s.length ∨ p = s := by
  have hle := h.length_le
  rcases Nat.lt_or_ge s.length p.length with hlt | hge
  · exact Or.inl hlt
  · exact Or.inr (h.eq_of_length (by omega)).symm

/-- C7: directory-marker rejection.  A path that is empty, equals `.`, or ends
with `/`, `/.` or `/..` (the paths `/`, `/.` and `/..` themselves included) is
rejected by `gitfo_prettify_file_path` with `GIT_EINVALIDPATH`, whatever the
capacity and the working directory. -/
theorem prettify_file_path_rejects_folders (env : Env) (size : Nat) (p : List Char)
    (h : p = [] ∨ p = ['.'] ∨ ['/'] <:+ p ∨ ['/', '.'] <:+ p ∨ ['/', '.', '.'] <:+ p) :
    gitfo_prettify_file_path env size p = some (Except.error GIT_EINVALIDPATH) := by
  rcases h with h | h | h | h | h
  · subst h
    rfl
  · subst h
    rfl
  · rcases suffix_length_cases _ _ h with hl | hl
    · exact file_path_of_loop env size p
        ((folder_suffix_loop_iff p).mpr (Or.inl ⟨hl, h⟩))
    · rw [hl]
      exact file_path_root env size
  · rcases suffix_length_cases _ _ h with hl | hl
    · exact file_path_of_loop env size p
        ((folder_suffix_loop_iff p).mpr (Or.inr (Or.inl ⟨hl, h⟩)))
    · rw [hl]
      exact file_path_root_dot env size
  · rcases suffix_length_cases _ _ h with hl | hl
    · exact file_path_of_loop env size p
        ((folder_suffix_loop_iff p).mpr (Or.inr (Or.inr ⟨hl, h⟩)))
    · rw [hl]
      exact file_path_root_dotdot env size

theorem prettify_file_path_rejects_folders_witness :
    ("/a/b/..".toList = [] ∨ "/a/b/..".toList = ['.'] ∨ ['/'] <:+ "/a/b/..".toList ∨
      ['/', '.'] <:+ "/a/b/..".toList ∨ ['/', '.', '.'] <:+ "/a/b/..".toList) ∧
    gitfo_prettify_file_path (envOf "/home/u".toList) 64 "/a/b/..".toList
      = some (Except.error GIT_EINVALIDPATH) :=
  ⟨by decide,
   prettify_file_path_rejects_folders (envOf "/home/u".toList) 64 "/a/b/..".toList
     (by decide)⟩

/-- Past its two tests `gitfo_prettify_file_path` is the directory normaliser
followed by the length test and the removal of the last byte. -/
theorem file_path_unfold (env : Env) (size : Nat) (p : List Char)
    (hroot : p.head? = some '/') (hloop : folder_suffix_loop p 3 1 = false) :
    gitfo_prettify_file_path env size p =
      match gitfo_prettify_dir_path env size p with
      | none => none
      | some (Except.error e) => some (Except.error e)
      | some (Except.ok buffer_out) =>
        if buffer_out.length < 2 then some (Except.error GIT_EINVALIDPATH)
        else some (Except.ok (buffer_out.take (buffer_out.length - 1))) := by
  obtain ⟨cs, rfl⟩ := rooted_cons p hroot
  unfold gitfo_prettify_file_path
  have h0 : ¬ (('/' :: cs).length = 0 ∨ (('/' :: cs).length = 1 ∧ charAt ('/' :: cs) 0 = '.')) := by
    have : charAt ('/' :: cs) 0 = '/' := rfl
    rw [this]
    simp
  simp only [h0, if_false, hloop]
  simp

/-- C8: for a rooted path that passes the file tests (it does not end with
`/`, `/.` or `/..`), `gitfo_prettify_file_path` succeeds with `r` exactly when
`gitfo_prettify_dir_path` succeeds with a result `d` of at least 2 characters
and `d` is `r` followed by its single trailing `/`; such an `r` does not end
with `/`. -/
theorem prettify_file_path_strips_slash (env : Env) (size : Nat) (p : List Char)
    (hroot : p.head? = some '/')
    (h1 : ¬ ['/'] <:+ p) (h2 : ¬ ['/', '.'] <:+ p) (h3 : ¬ ['/', '.', '.'] <:+ p) :
    (∀ r, gitfo_prettify_file_path env size p = some (Except.ok r) ↔
      ∃ d, gitfo_prettify_dir_path env size p = some (Except.ok d) ∧ 2 ≤ d.length ∧
        d = r ++ ['/']) ∧
    (∀ r, gitfo_prettify_file_path env size p = some (Except.ok r) →
      r.getLast? ≠ some '/') := by
  have hloop : folder_suffix_loop p 3 1 = false := by
    cases hl : folder_suffix_loop p 3 1 with
    | false => rfl
    | true =>
      rcases (folder_suffix_loop_iff p).mp hl with h | h | h
      · exact absurd h.2 h1
      · exact absurd h.2 h2
      · exact absurd h.2 h3
  have hfile := file_path_unfold env size p hroot hloop
  have hiff : ∀ r, gitfo_prettify_file_path env size p = some (Except.ok r) ↔
      ∃ d, gitfo_prettify_dir_path env size p = some (Except.ok d) ∧ 2 ≤ d.length ∧
        d = r ++ ['/'] := by
    intro r
    rw [hfile]
    cases hdir : gitfo_prettify_dir_path env size p with
    | none => simp
    | some res =>
      cases res with
      | error e => simp
      | ok d =>
        obtain ⟨stack, _, hd⟩ := dir_path_rooted_ok env size p d hroot hdir
        obtain ⟨a, ha⟩ := render_snoc stack
        rw [ha] at hd
        subst hd
        by_cases hlen : (a ++ ['/']).length < 2
        · simp only [hlen, if_true]
          constructor
          · intro h
            simp at h
          · rintro ⟨d, hd1, hd2, _⟩
            simp at hd1
            rw [← hd1] at hd2
            omega
        · simp only [hlen, if_false]
          constructor
          · intro h
            simp at h
            refine ⟨a ++ ['/'], rfl, by omega, ?_⟩
            rw [h]
          · rintro ⟨d, hd1, _, hd3⟩
            simp at hd1
            rw [← hd1] at hd3
            have : a = r := List.append_inj_left' hd3 rfl
            simp [this]
  refine ⟨hiff, ?_⟩
  intro r hr
  obtain ⟨d, hd1, _, hd3⟩ := (hiff r).mp hr
  obtain ⟨stack, hcan, hd⟩ := dir_path_rooted_ok env size p d hroot hd1
  have hchain := render_chain stack hcan
  rw [← hd, hd3] at hchain
  have hj := (List.chain'_append.mp hchain).2.2
  intro hlast
  exact hj '/' (by simp [hlast]) '/' (by simp) ⟨rfl, rfl⟩

theorem prettify_file_path_strips_slash_witness :
    "/a/b".toList.head? = some '/' ∧
    ¬ ['/'] <:+ "/a/b".toList ∧ ¬ ['/', '.'] <:+ "/a/b".toList ∧
    ¬ ['/', '.', '.'] <:+ "/a/b".toList ∧
    gitfo_prettify_file_path (envOf "/home/u".toList) 64 "/a/b".toList
      = some (Except.ok "/a/b".toList) ∧
    ((∀ r, gitfo_prettify_file_path (envOf "/home/u".toList) 64 "/a/b".toList
        = some (Except.ok r) ↔
      ∃ d, gitfo_prettify_dir_path (envOf "/home/u".toList) 64 "/a/b".toList
          = some (Except.ok d) ∧ 2 ≤ d.length ∧ d = r ++ ['/']) ∧
    (∀ r, gitfo_prettify_file_path (envOf "/home/u".toList) 64 "/a/b".toList
        = some (Except.ok r) → r.getLast? ≠ some '/')) :=
  ⟨by decide, by decide, by decide, by decide, by decide,
   prettify_file_path_strips_slash (envOf "/home/u".toList) 64 "/a/b".toList
     (by decide) (by decide) (by decide) (by decide)⟩

/-- The file normaliser returns on every path, in every environment. -/
theorem file_path_total (env : Env) (size : Nat) (p : List Char) :
    gitfo_prettify_file_path env size p ≠ none := by
  unfold gitfo_prettify_file_path
  simp only
  split
  · simp
  · split
    · simp
    · have h := dir_path_total env size p
      split
      · rename_i heq
        exact absurd heq h
      · simp
      · split <;> simp

/-! ## Claims on `gitfo_mkdir_recurs` -/

theorem wellFormed_fsOf_single (name : List Char) (k : Kind) :
    wellFormed (fsOf [([name], k)]) := by
  intro c loc h
  by_cases hl : loc = []
  · subst hl
    rfl
  · exfalso
    apply h
    have hne : ¬ ([name] = c :: loc) := by
      intro he
      exact hl (List.cons.inj he).2.symm
    simp [kindAt, fsOf, List.find?, hne]

theorem wellFormed_fsOf_nil : wellFormed (fsOf []) := by
  intro c loc h
  exfalso
  apply h
  simp [kindAt, fsOf]

/-- Rooted paths that end with a separator: the run succeeds, the whole path
walks to a directory, and the final state has grown from the initial one. -/
theorem mkdir_recurs_spec (fs : FS) (path : List Char)
    (hwf : wellFormed fs) (hperm : ∀ loc, fs.denied loc = false)
    (hroot : path.head? = some '/') (hlast : path.getLast? = some '/')
    (hfiles : ∀ q ∈ path.inits, q.getLast? = some '/' → kindAt fs (lexLoc q) ≠ some file) :
    ∃ fs1, gitfo_mkdir_recurs fs path = (none, fs1) ∧ Grown fs fs1 ∧
      walk fs1 [] (components path) = Except.ok (lexLoc path) ∧
      kindAt fs1 (lexLoc path) = some dir := by
  obtain ⟨cs, rfl⟩ := rooted_cons path hroot
  unfold gitfo_mkdir_recurs
  simp only [root_offset_rooted, gt_iff_lt, lt_irrefl, if_false]
  exact mkdir_loop_spec fs ('/' :: cs) hroot hlast hfiles ('/' :: cs) [] [] fs rfl (by simp)
    (Or.inl ⟨rfl, rfl⟩) ⟨hwf, hperm, fun _ _ h => h, fun _ h => h⟩ rfl rfl

/-- C9 (counterexample): `/f` is a regular file and `/x` does not exist.  No
leading part of `/x/../f/` exists except the root, yet the run succeeds and
leaves `/x/../f/` a regular file. -/
theorem mkdir_recurs_dotdot_reaches_file :
    wellFormed (fsOf [(["f".toList], file)]) ∧
    (∀ loc, (fsOf [(["f".toList], file)]).denied loc = false) ∧
    (∀ q ∈ "/x/../f/".toList.inits, q.getLast? = some '/' →
      stat (fsOf [(["f".toList], file)]) q ≠ Except.ok file) ∧
    (gitfo_mkdir_recurs (fsOf [(["f".toList], file)]) "/x/../f/".toList).1 = none ∧
    stat (gitfo_mkdir_recurs (fsOf [(["f".toList], file)]) "/x/../f/".toList).2
      "/x/../f/".toList = Except.ok file :=
  ⟨wellFormed_fsOf_single _ _, fun _ => rfl, by decide, by decide, by decide⟩

/-- C9 (amended): let the path be rooted and end with `/`, and the state be
well formed and deny no creation.  Let either the path have no `..` segment
and every leading part of it that exists be a directory, or no leading part of
it that ends at a `/` name a regular file once its `.` and `..` are resolved on
the names.  Then `gitfo_mkdir_recurs` returns success, afterwards every leading
part of the path that ends at a `/` is a directory, and every entry that
existed before is unchanged. -/
theorem mkdir_recurs_creates_tree (fs : FS) (path : List Char)
    (hwf : wellFormed fs) (hperm : ∀ loc, fs.denied loc = false)
    (hroot : path.head? = some '/') (hlast : path.getLast? = some '/')
    (hfiles :
      (['.', '.'] ∉ components path ∧
        ∀ q ∈ path.inits, q.getLast? = some '/' → stat fs q ≠ Except.ok file) ∨
      (∀ q ∈ path.inits, q.getLast? = some '/' → kindAt fs (lexLoc q) ≠ some file)) :
    (gitfo_mkdir_recurs fs path).1 = none ∧
    (∀ q ∈ path.inits, q.getLast? = some '/' →
      stat (gitfo_mkdir_recurs fs path).2 q = Except.ok dir) ∧
    (∀ loc k, kindAt fs loc = some k →
      kindAt (gitfo_mkdir_recurs fs path).2 loc = some k) := by
  have hnames : ∀ q ∈ path.inits, q.getLast? = some '/' →
      kindAt fs (lexLoc q) ≠ some file := by
    rcases hfiles with ⟨hno, hstat⟩ | h
    · exact no_file_on_names fs hwf path hroot hno hstat
    · exact h
  obtain ⟨fs1, hrun, hg, hw, hk⟩ := mkdir_recurs_spec fs path hwf hperm hroot hlast hnames
  rw [hrun]
  refine ⟨rfl, ?_, hg.keeps⟩
  intro q hq hqlast
  obtain ⟨r, hr⟩ := (List.mem_inits q path).mp hq
  obtain ⟨a, ha⟩ := snoc_of_getLast q hqlast
  have hq0 : q ≠ [] := by
    rw [ha]
    simp
  have hqroot : q.head? = some '/' := by
    rw [← hr] at hroot
    exact head_of_append q r hq0 hroot
  have hcomp : components path = components q ++ components r := by
    rw [← hr, ha, components_snoc_slash]
    have e : a ++ ['/'] ++ r = a ++ '/' :: r := by simp
    rw [e, components_append_slash]
  rw [hcomp] at hw
  obtain ⟨mid, h1, h2⟩ := walk_append_ok fs1 _ _ _ _ hw
  have hmid : kindAt fs1 mid = some dir := walk_start_dir fs1 _ _ _ h2 hk
  have hstart : startLoc fs1 q = [] := by simp [startLoc, hqroot]
  simp only
  unfold stat
  rw [if_neg hq0, hstart, h1]
  simp only [hmid]

theorem mkdir_recurs_creates_tree_witness :
    wellFormed (fsOf [(["x".toList], dir)]) ∧
    (∀ loc, (fsOf [(["x".toList], dir)]).denied loc = false) ∧
    "/x/y/z/".toList.head? = some '/' ∧ "/x/y/z/".toList.getLast? = some '/' ∧
    (['.', '.'] ∉ components "/x/y/z/".toList ∧
      ∀ q ∈ "/x/y/z/".toList.inits, q.getLast? = some '/' →
        stat (fsOf [(["x".toList], dir)]) q ≠ Except.ok file) ∧
    stat (fsOf [(["x".toList], dir)]) "/x/y".toList = Except.error ENOENT ∧
    ((gitfo_mkdir_recurs (fsOf [(["x".toList], dir)]) "/x/y/z/".toList).1 = none ∧
    (∀ q ∈ "/x/y/z/".toList.inits, q.getLast? = some '/' →
      stat (gitfo_mkdir_recurs (fsOf [(["x".toList], dir)]) "/x/y/z/".toList).2 q
        = Except.ok dir) ∧
    (∀ loc k, kindAt (fsOf [(["x".toList], dir)]) loc = some k →
      kindAt (gitfo_mkdir_recurs (fsOf [(["x".toList], dir)]) "/x/y/z/".toList).2 loc
        = some k)) :=
  ⟨wellFormed_fsOf_single _ _, fun _ => rfl, by decide, by decide, by decide, by decide,
   mkdir_recurs_creates_tree (fsOf [(["x".toList], dir)]) "/x/y/z/".toList
     (wellFormed_fsOf_single _ _) (fun _ => rfl) (by decide) (by decide)
     (Or.inl (by decide))⟩

/-- C10 (failing input): on a filesystem with only the root, the run on
`/x/y/z` returns success and creates `/x/y`, and `/x/y/z` does not exist
afterwards: the byte `*(pp - 1)` tested at line 355 is the last separator
found, never the last byte of the path. -/
theorem mkdir_recurs_skips_final_component :
    (gitfo_mkdir_recurs (fsOf []) "/x/y/z".toList).1 = none ∧
    stat (gitfo_mkdir_recurs (fsOf []) "/x/y/z".toList).2 "/x/y".toList = Except.ok dir ∧
    stat (gitfo_mkdir_recurs (fsOf []) "/x/y/z".toList).2 "/x/y/z".toList
      = Except.error ENOENT := by
  decide

/-! ## Claims on relative paths -/

/-- The normaliser on a canonical directory followed by any path is the
reference scan of the path started from the stack of the directory. -/
theorem dir_path_render_append (env : Env) (size : Nat) (stack : List (List Char))
    (hcan : canonStack stack) (p : List Char) :
    gitfo_prettify_dir_path env size (render stack ++ p)
      = refOutcome ((refScan (splitSlash p) stack).map render) := by
  have hroot : (render stack ++ p).head? = some '/' := by
    obtain ⟨a, ha⟩ := render_head stack
    simp [ha]
  rw [dir_path_rooted env size _ hroot, splitSlash_render stack hcan p]
  have hall : ∀ s ∈ stack.reverse, ordinary s := fun s hs => hcan s (by simpa using hs)
  have e : refScan ([] :: (stack.reverse ++ splitSlash p)) []
      = refScan (stack.reverse ++ splitSlash p) [] := by
    simp [refScan]
  rw [e, refScan_push_all _ hall]
  simp

/-- C18: a path that is not rooted is resolved against the working directory.
When `gitfo_getcwd` delivers a canonical directory `c` (rooted, single
slashes, no segment made only of dots, ending in `/`), the normaliser has on a
relative path `p` the outcome it has on the rooted path `c ++ p`; and on a
rooted path the outcome is the same in every environment and for every
capacity. -/
theorem prettify_dir_path_relative (env : Env) (size : Nat) (p : List Char)
    (stack : List (List Char)) (hcan : canonStack stack)
    (hrel : p.head? ≠ some '/')
    (hcwd : gitfo_getcwd env size = Except.ok (render stack)) :
    gitfo_prettify_dir_path env size p
      = gitfo_prettify_dir_path env size (render stack ++ p) ∧
    (∀ (q : List Char) (env2 : Env) (size2 : Nat), q.head? = some '/' →
      gitfo_prettify_dir_path env size q = gitfo_prettify_dir_path env2 size2 q) := by
  constructor
  · rw [dir_path_seeded env size p stack hcan hrel hcwd,
      dir_path_render_append env size stack hcan p]
  · intro q env2 size2 hq
    rw [dir_path_rooted env size q hq, dir_path_rooted env2 size2 q hq]

theorem prettify_dir_path_relative_witness :
    canonStack ["u".toList, "home".toList] ∧
    "x/../y".toList.head? ≠ some '/' ∧
    gitfo_getcwd (envOf "/home/u".toList) 64
      = Except.ok (render ["u".toList, "home".toList]) ∧
    gitfo_prettify_dir_path (envOf "/home/u".toList) 64 "x/../y".toList
      = some (Except.ok "/home/u/y/".toList) ∧
    (gitfo_prettify_dir_path (envOf "/home/u".toList) 64 "x/../y".toList
      = gitfo_prettify_dir_path (envOf "/home/u".toList) 64
          (render ["u".toList, "home".toList] ++ "x/../y".toList) ∧
    (∀ (q : List Char) (env2 : Env) (size2 : Nat), q.head? = some '/' →
      gitfo_prettify_dir_path (envOf "/home/u".toList) 64 q
        = gitfo_prettify_dir_path env2 size2 q)) :=
  ⟨by decide, by decide, by decide, by decide,
   prettify_dir_path_relative (envOf "/home/u".toList) 64 "x/../y".toList
     ["u".toList, "home".toList] (by decide) (by decide) (by decide)⟩

/-! ## More claims on `gitfo_mkdir_recurs` -/

/-- C11 (failing input): `/f` is a regular file.  The run on `/f/` returns
success, the `EEXIST` of `mkdir` being accepted without a test that the entry
is a directory, and `/f` is still a regular file afterwards. -/
theorem mkdir_recurs_accepts_file :
    stat (fsOf [(["f".toList], file)]) "/f".toList = Except.ok file ∧
    mkdir (fsOf [(["f".toList], file)]) "/f".toList = Except.error EEXIST ∧
    (gitfo_mkdir_recurs (fsOf [(["f".toList], file)]) "/f/".toList).1 = none ∧
    stat (gitfo_mkdir_recurs (fsOf [(["f".toList], file)]) "/f/".toList).2 "/f/".toList
      = Except.ok file :=
  ⟨by decide, rfl, by decide, by decide⟩

theorem extends_refl (fs : FS) : Extends fs fs := ⟨fun _ _ h => h, rfl⟩

theorem extends_trans (a b c : FS) (h1 : Extends a b) (h2 : Extends b c) : Extends a c :=
  ⟨fun loc k h => h2.keeps loc k (h1.keeps loc k h), by rw [h2.cwd, h1.cwd]⟩

theorem walk_error (fs : FS) (cs : List (List Char)) :
    ∀ loc e, walk fs loc cs = Except.error e → e = ENOENT ∨ e = ENOTDIR := by
  induction cs with
  | nil =>
    intro loc e h
    simp [walk] at h
  | cons c cs ih =>
    intro loc e h
    unfold walk at h
    cases hk : kindAt fs loc with
    | none =>
      rw [hk] at h
      simp at h
      exact Or.inl h.symm
    | some k =>
      cases k with
      | file =>
        rw [hk] at h
        simp at h
        exact Or.inr h.symm
      | dir =>
        rw [hk] at h
        exact ih _ _ h

/-- What a `mkdir` that succeeds or reports `EEXIST` has found. -/
theorem mkdir_cases (fs : FS) (p : List Char) :
    (∀ fs1, mkdir fs p ≠ Except.ok fs1) ∧ mkdir fs p ≠ Except.error EEXIST ∨
    ((components p).reverse = [] ∧ p ≠ [] ∧ mkdir fs p = Except.error EEXIST) ∨
    ∃ c parents par, (components p).reverse = c :: parents ∧
      walk fs (startLoc fs p) parents.reverse = Except.ok par ∧ kindAt fs par = some dir ∧
      ((c = ['.'] ∨ c = ['.', '.']) ∧ mkdir fs p = Except.error EEXIST ∨
       ¬ (c = ['.'] ∨ c = ['.', '.']) ∧ kindAt fs (c :: par) ≠ none ∧
         mkdir fs p = Except.error EEXIST ∨
       ¬ (c = ['.'] ∨ c = ['.', '.']) ∧ kindAt fs (c :: par) = none ∧
         mkdir fs p = Except.ok
          { fs with entry := fun loc => if loc = c :: par then some dir else fs.entry loc }) := by
  unfold mkdir
  cases hc : (components p).reverse with
  | nil =>
    by_cases hp : p = []
    · left
      simp [hp]
    · right
      left
      simp [hp]
  | cons c parents =>
    simp only
    cases hw : walk fs (startLoc fs p) parents.reverse with
    | error e =>
      left
      rcases walk_error fs _ _ _ hw with h | h <;> simp [h]
    | ok par =>
      simp only
      cases hk : kindAt fs par with
      | none =>
        left
        simp
      | some k =>
        cases k with
        | file =>
          left
          simp
        | dir =>
          simp only
          by_cases hdot : c = ['.'] ∨ c = ['.', '.']
          · right
            right
            exact ⟨c, parents, par, rfl, hw, hk, Or.inl ⟨hdot, by rw [if_pos hdot]⟩⟩
          · by_cases hex : kindAt fs (c :: par) ≠ none
            · right
              right
              exact ⟨c, parents, par, rfl, hw, hk,
                Or.inr (Or.inl ⟨hdot, hex, by rw [if_neg hdot, if_pos hex]⟩)⟩
            · have hex2 : kindAt fs (c :: par) = none := by
                by_contra h
                exact hex h
              by_cases hden : fs.denied par = true
              · left
                rw [if_neg hdot, if_neg hex, if_pos hden]
                simp
              · right
                right
                exact ⟨c, parents, par, rfl, hw, hk,
                  Or.inr (Or.inr ⟨hdot, hex2, by rw [if_neg hdot, if_neg hex, if_neg hden]⟩)⟩

theorem mkdir_extends (fs fs1 : FS) (p : List Char) (h : mkdir fs p = Except.ok fs1) :
    Extends fs fs1 := by
  rcases mkdir_cases fs p with h1 | h1 | ⟨c, parents, par, _, _, _, h1⟩
  · exact absurd h (h1.1 fs1)
  · rw [h1.2.2] at h
    simp at h
  · rcases h1 with h1 | h1 | h1
    · rw [h1.2] at h
      simp at h
    · rw [h1.2.2] at h
      simp at h
    · rw [h1.2.2] at h
      injection h with h
      subst h
      refine ⟨?_, rfl⟩
      intro loc k hk
      by_cases hl : loc = c :: par
      · subst hl
        rw [h1.2.1] at hk
        simp at hk
      · by_cases hl0 : loc = []
        · subst hl0
          exact hk
        · simpa [kindAt, hl, hl0] using hk

theorem mkdir_loop_extends (path : List Char) :
    ∀ (rest done seg : List Char) (fs fs1 : FS) (e : Option Errno),
      mkdir_recurs_loop path done seg rest fs = (e, fs1) → Extends fs fs1 := by
  intro rest
  induction rest with
  | nil =>
    intro done seg fs fs1 e h
    unfold mkdir_recurs_loop at h
    split at h
    · cases hm : mkdir fs path with
      | error er =>
        rw [hm] at h
        simp at h
        rw [← h.2]
        exact extends_refl fs
      | ok fs2 =>
        rw [hm] at h
        simp at h
        rw [← h.2]
        exact mkdir_extends fs fs2 path hm
    · simp at h
      rw [← h.2]
      exact extends_refl fs
  | cons c rest ih =>
    intro done seg fs fs1 e h
    unfold mkdir_recurs_loop at h
    split at h
    · split at h
      · cases hm : mkdir fs (done ++ seg) with
        | error er =>
          rw [hm] at h
          simp only at h
          split at h
          · exact ih _ _ _ _ _ h
          · simp at h
            rw [← h.2]
            exact extends_refl fs
        | ok fs2 =>
          rw [hm] at h
          simp only at h
          exact extends_trans _ _ _ (mkdir_extends fs fs2 _ hm) (ih _ _ _ _ _ h)
      · exact ih _ _ _ _ _ h
    · exact ih _ _ _ _ _ h

theorem stat_mono (fs fs1 : FS) (hx : Extends fs fs1) (p : List Char) (k : Kind)
    (h : stat fs p = Except.ok k) : stat fs1 p = Except.ok k := by
  unfold stat at h ⊢
  by_cases hp : p = []
  · simp [hp] at h
  · rw [if_neg hp] at h ⊢
    have hs : startLoc fs1 p = startLoc fs p := by simp [startLoc, hx.cwd]
    rw [hs]
    cases hw : walk fs (startLoc fs p) (components p) with
    | error e => rw [hw] at h; simp at h
    | ok loc =>
      rw [hw] at h
      rw [walk_mono fs fs1 hx.keeps _ _ _ hw]
      simp only at h ⊢
      cases hk : kindAt fs loc with
      | none => rw [hk] at h; simp at h
      | some k2 =>
        rw [hk] at h
        rw [hx.keeps loc k2 hk]
        exact h

theorem isdir_mono (fs fs1 : FS) (hx : Extends fs fs1) (p : List Char)
    (h : gitfo_isdir fs p = Except.ok ()) : gitfo_isdir fs1 p = Except.ok () := by
  unfold gitfo_isdir at h ⊢
  simp only at h ⊢
  by_cases hc : charAt p ((p.length : Int) - 1) = '/'
  · rw [if_pos hc] at h ⊢
    cases hs : stat fs (p.take (p.length - 1)) with
    | error e => rw [hs] at h; simp at h
    | ok k =>
      rw [hs] at h
      rw [stat_mono fs fs1 hx _ k hs]
      exact h
  · rw [if_neg hc] at h ⊢
    cases hs : stat fs p with
    | error e => rw [hs] at h; simp at h
    | ok k =>
      rw [hs] at h
      rw [stat_mono fs fs1 hx _ k hs]
      exact h

/-- After a `mkdir` that succeeded or reported `EEXIST`, the same call in any
later state reports `EEXIST`. -/
theorem mkdir_again (fs fs1 T : FS) (p : List Char)
    (h : mkdir fs p = Except.ok fs1 ∧ Extends fs1 T ∨
      mkdir fs p = Except.error EEXIST ∧ Extends fs T) :
    mkdir T p = Except.error EEXIST := by
  have hfsT : Extends fs T := by
    rcases h with ⟨h1, h2⟩ | ⟨_, h2⟩
    · exact extends_trans _ _ _ (mkdir_extends fs fs1 p h1) h2
    · exact h2
  have hs : startLoc T p = startLoc fs p := by simp [startLoc, hfsT.cwd]
  rcases mkdir_cases fs p with h1 | h1 | ⟨c, parents, par, hc, hw, hk, h1⟩
  · rcases h with ⟨h2, _⟩ | ⟨h2, _⟩
    · exact absurd h2 (h1.1 fs1)
    · exact absurd h2 h1.2
  · unfold mkdir
    rw [h1.1]
    simp [h1.2.1]
  · have hwT : walk T (startLoc T p) parents.reverse = Except.ok par := by
      rw [hs]
      exact walk_mono fs T hfsT.keeps _ _ _ hw
    have hkT : kindAt T par = some dir := hfsT.keeps _ _ hk
    have hmk : mkdir T p =
        (if c = ['.'] ∨ c = ['.', '.'] then Except.error EEXIST
          else if kindAt T (c :: par) ≠ none then Except.error EEXIST
          else if T.denied par = true then Except.error EACCES
          else Except.ok
            { T with entry := fun l => if l = c :: par then some dir else T.entry l }) := by
      unfold mkdir
      rw [hc]
      simp only [hwT, hkT]
    rw [hmk]
    rcases h1 with h1 | h1 | h1
    · rw [if_pos h1.1]
    · rw [if_neg h1.1]
      cases hk1 : kindAt fs (c :: par) with
      | none => exact absurd hk1 h1.2.1
      | some k =>
        have := hfsT.keeps _ _ hk1
        rw [if_pos (by rw [this]; simp)]
    · rw [if_neg h1.1]
      rcases h with ⟨h2, h3⟩ | ⟨h2, _⟩
      · rw [h1.2.2] at h2
        injection h2 with h2
        have hnew : kindAt fs1 (c :: par) = some dir := by
          rw [← h2]
          simp [kindAt]
        have := h3.keeps _ _ hnew
        rw [if_pos (by rw [this]; simp)]
      · rw [h1.2.2] at h2
        simp at h2

/-- A second run of the loop, from any state that extends the result of a
successful run, changes nothing and succeeds. -/
theorem mkdir_loop_again (path : List Char) :
    ∀ (rest done seg : List Char) (fs fs1 T : FS), done.getLast? = some '/' →
      mkdir_recurs_loop path done seg rest fs = (none, fs1) → Extends fs1 T →
      mkdir_recurs_loop path done seg rest T = (none, T) := by
  intro rest
  induction rest with
  | nil =>
    intro done seg fs fs1 T hd _ _
    unfold mkdir_recurs_loop
    simp [hd]
  | cons c rest ih =>
    intro done seg fs fs1 T hd hrun hx
    have hfsT : Extends fs T := extends_trans _ _ _ (mkdir_loop_extends path _ _ _ _ _ _ hrun) hx
    have hd2 : (done ++ seg ++ ['/']).getLast? = some '/' := by simp
    by_cases hc : c = '/'
    · subst hc
      unfold mkdir_recurs_loop at hrun ⊢
      rw [if_pos rfl] at hrun ⊢
      by_cases hseg : seg = []
      · have n1 : ¬ (seg ≠ [] ∧ gitfo_isdir fs path ≠ Except.ok ()) := fun h => h.1 hseg
        have n2 : ¬ (seg ≠ [] ∧ gitfo_isdir T path ≠ Except.ok ()) := fun h => h.1 hseg
        rw [if_neg n1] at hrun
        rw [if_neg n2]
        exact ih _ _ _ _ _ hd2 hrun hx
      · by_cases h1 : gitfo_isdir fs path = Except.ok ()
        · have n1 : ¬ (seg ≠ [] ∧ gitfo_isdir fs path ≠ Except.ok ()) := fun h => h.2 h1
          have n2 : ¬ (seg ≠ [] ∧ gitfo_isdir T path ≠ Except.ok ()) :=
            fun h => h.2 (isdir_mono fs T hfsT path h1)
          rw [if_neg n1] at hrun
          rw [if_neg n2]
          exact ih _ _ _ _ _ hd2 hrun hx
        · have p1 : seg ≠ [] ∧ gitfo_isdir fs path ≠ Except.ok () := ⟨hseg, h1⟩
          rw [if_pos p1] at hrun
          have key : ∀ fsm : FS,
              mkdir_recurs_loop path (done ++ seg ++ ['/']) [] rest fsm = (none, fs1) →
              (mkdir fs (done ++ seg) = Except.ok fsm ∨
                mkdir fs (done ++ seg) = Except.error EEXIST ∧ fsm = fs) →
              (if seg ≠ [] ∧ gitfo_isdir T path ≠ Except.ok () then
                match mkdir T (done ++ seg) with
                | Except.ok fs1 => mkdir_recurs_loop path (done ++ seg ++ ['/']) [] rest fs1
                | Except.error e =>
                  if e = EEXIST then
                    mkdir_recurs_loop path (done ++ seg ++ ['/']) [] rest T
                  else (some e, T)
              else mkdir_recurs_loop path (done ++ seg ++ ['/']) [] rest T) = (none, T) := by
            intro fsm hloop hmk
            have hgoal := ih _ _ _ _ _ hd2 hloop hx
            by_cases h2 : gitfo_isdir T path = Except.ok ()
            · have n2 : ¬ (seg ≠ [] ∧ gitfo_isdir T path ≠ Except.ok ()) := fun h => h.2 h2
              rw [if_neg n2]
              exact hgoal
            · have p2 : seg ≠ [] ∧ gitfo_isdir T path ≠ Except.ok () := ⟨hseg, h2⟩
              rw [if_pos p2]
              have hxm : Extends fsm T :=
                extends_trans _ _ _ (mkdir_loop_extends path _ _ _ _ _ _ hloop) hx
              have hagain : mkdir T (done ++ seg) = Except.error EEXIST := by
                rcases hmk with hmk | ⟨hmk, hfs⟩
                · exact mkdir_again fs fsm T _ (Or.inl ⟨hmk, hxm⟩)
                · exact mkdir_again fs fsm T _ (Or.inr ⟨hmk, hfsT⟩)
              rw [hagain]
              simp only [if_true]
              exact hgoal
          cases hm : mkdir fs (done ++ seg) with
          | ok fsm =>
            rw [hm] at hrun
            exact key fsm hrun (Or.inl hm)
          | error e =>
            rw [hm] at hrun
            simp only at hrun
            by_cases he : e = EEXIST
            · rw [if_pos he] at hrun
              subst he
              exact key fs hrun (Or.inr ⟨hm, rfl⟩)
            · rw [if_neg he] at hrun
              simp at hrun
    · unfold mkdir_recurs_loop at hrun ⊢
      rw [if_neg hc] at hrun ⊢
      exact ih _ _ _ _ _ hd hrun hx

/-- C12: idempotence of materialisation.  When `gitfo_mkdir_recurs` succeeds on
a rooted path, with or without a trailing `/`, a second run on the same path
from the state it produced succeeds too and leaves that state as it is. -/
theorem mkdir_recurs_idempotent (fs : FS) (path : List Char)
    (hroot : path.head? = some '/')
    (hok : (gitfo_mkdir_recurs fs path).1 = none) :
    gitfo_mkdir_recurs (gitfo_mkdir_recurs fs path).2 path
      = (none, (gitfo_mkdir_recurs fs path).2) := by
  obtain ⟨cs, rfl⟩ := rooted_cons path hroot
  have hunf : ∀ s : FS, gitfo_mkdir_recurs s ('/' :: cs)
      = mkdir_recurs_loop ('/' :: cs) ['/'] [] cs s := by
    intro s
    unfold gitfo_mkdir_recurs
    simp only [root_offset_rooted, gt_iff_lt, lt_irrefl, if_false]
    conv_lhs => unfold mkdir_recurs_loop
    simp
  rw [hunf fs] at hok ⊢
  rw [hunf]
  cases hrun : mkdir_recurs_loop ('/' :: cs) ['/'] [] cs fs with
  | mk e fs1 =>
    rw [hrun] at hok
    simp only at hok
    subst hok
    exact mkdir_loop_again ('/' :: cs) cs ['/'] [] fs fs1 fs1 rfl hrun (extends_refl fs1)

theorem mkdir_recurs_idempotent_witness :
    "/x/y/z".toList.head? = some '/' ∧
    (gitfo_mkdir_recurs (fsOf [(["x".toList], dir)]) "/x/y/z".toList).1 = none ∧
    stat (gitfo_mkdir_recurs (fsOf [(["x".toList], dir)]) "/x/y/z".toList).2 "/x/y".toList
      = Except.ok dir ∧
    gitfo_mkdir_recurs (gitfo_mkdir_recurs (fsOf [(["x".toList], dir)]) "/x/y/z".toList).2
        "/x/y/z".toList
      = (none, (gitfo_mkdir_recurs (fsOf [(["x".toList], dir)]) "/x/y/z".toList).2) :=
  ⟨by decide, by decide, by decide,
   mkdir_recurs_idempotent (fsOf [(["x".toList], dir)]) "/x/y/z".toList
     (by decide) (by decide)⟩

/-! ## Claims on `gitfo_cmp_path` -/

/-- C19 (failing input): the file `a` against the directory `ab`.  In the tree
order `a` comes before `ab/`, the comparison of the names is negative; the
function returns `'b' - '/'`, which is 51, whether `char` is signed or not.
Where `char` is signed a second input fails: the directory `a` against the
file whose name is `a` followed by the byte 200 compares as `a/` against that
name, negative on unsigned bytes, and the function returns 103. -/
theorem cmp_path_file_before_dir :
    lexCmp (treeName (bytesOf "a") false) (treeName (bytesOf "ab") true) = -1 ∧
    (∀ char_signed : Bool,
      gitfo_cmp_path char_signed (bytesOf "a") 1 false (bytesOf "ab") 2 true = 51) ∧
    lexCmp (treeName [97] true) (treeName [97, 200] false) = -1 ∧
    gitfo_cmp_path true [97] 1 true [97, 200] 2 false = 103 := by
  decide

theorem memcmp_swap : ∀ (n : Nat) (a b : List Nat), memcmp b a n = - memcmp a b n := by
  intro n
  induction n with
  | zero =>
    intro a b
    simp [memcmp]
  | succ n ih =>
    intro a b
    unfold memcmp
    by_cases h : a.headD 0 = b.headD 0
    · have h2 : ¬ (b.headD 0 ≠ a.headD 0) := fun hh => hh h.symm
      have h3 : ¬ (a.headD 0 ≠ b.headD 0) := fun hh => hh h
      rw [if_neg h2, if_neg h3]
      exact ih _ _
    · have h2 : b.headD 0 ≠ a.headD 0 := fun hh => h hh.symm
      rw [if_pos h2, if_pos h]
      omega

/-- Swapping the two entries negates the value the function returns. -/
theorem cmp_path_swap (cs : Bool) (name1 : List Nat) (len1 : Nat) (isdir1 : Bool)
    (name2 : List Nat) (len2 : Nat) (isdir2 : Bool) :
    gitfo_cmp_path cs name2 len2 isdir2 name1 len1 isdir1
      = - gitfo_cmp_path cs name1 len1 isdir1 name2 len2 isdir2 := by
  unfold gitfo_cmp_path
  have hmin : (if len2 < len1 then len2 else len1) = (if len1 < len2 then len1 else len2) := by
    split <;> split <;> omega
  simp only [hmin]
  rw [memcmp_swap (if len1 < len2 then len1 else len2) name1 name2]
  by_cases hm : memcmp name1 name2 (if len1 < len2 then len1 else len2) = 0
  · have hm2 : ¬ (- memcmp name1 name2 (if len1 < len2 then len1 else len2) ≠ 0) := by
      rw [hm]
      simp
    have hm3 : ¬ (memcmp name1 name2 (if len1 < len2 then len1 else len2) ≠ 0) :=
      fun h => h hm
    rw [if_neg hm2, if_neg hm3]
    rcases Nat.lt_trichotomy len1 len2 with h | h | h
    · have n1 : ¬ (len2 < len1) := by omega
      have n2 : len2 > len1 := h
      rw [if_neg n1, if_pos n2, if_pos h]
      cases isdir1 <;> cases isdir2 <;> simp
    · subst h
      simp
    · have n1 : ¬ (len1 < len2) := by omega
      have n2 : len1 > len2 := h
      rw [if_pos h, if_neg n1, if_pos n2]
      cases isdir1 <;> cases isdir2 <;> simp
  · have hm2 : - memcmp name1 name2 (if len1 < len2 then len1 else len2) ≠ 0 := by
      intro h
      apply hm
      omega
    rw [if_pos hm2, if_pos hm]

/-- C20: antisymmetry.  For all names, lengths and directory flags the sign of
`gitfo_cmp_path` in one order of the arguments is the negation of its sign in
the other order, and the function returns 0 in one order exactly when it does
in the other. -/
theorem cmp_path_antisymmetric (char_signed : Bool) (name1 : List Nat) (len1 : Nat)
    (isdir1 : Bool) (name2 : List Nat) (len2 : Nat) (isdir2 : Bool) :
    Int.sign (gitfo_cmp_path char_signed name1 len1 isdir1 name2 len2 isdir2)
      = - Int.sign (gitfo_cmp_path char_signed name2 len2 isdir2 name1 len1 isdir1) ∧
    (gitfo_cmp_path char_signed name1 len1 isdir1 name2 len2 isdir2 = 0 ↔
      gitfo_cmp_path char_signed name2 len2 isdir2 name1 len1 isdir1 = 0) := by
  rw [cmp_path_swap char_signed name1 len1 isdir1 name2 len2 isdir2]
  constructor
  · rw [Int.sign_neg]
    simp
  · constructor
    · intro h
      rw [h]
      rfl
    · intro h
      omega

/-! ## Facts on `gitfo_dirent` -/

theorem dirent_strip_append (p t : List Char) :
    ∀ k, k ≤ p.length → dirent_strip (p ++ t) k = dirent_strip p k := by
  intro k
  induction k with
  | zero => intro _; rfl
  | succ k ih =>
    intro hk
    unfold dirent_strip
    rw [charAt_append_left p t k (by omega), ih (by omega)]

theorem stripSlashes_snoc_slash (p : List Char) :
    stripSlashes (p ++ ['/']) = stripSlashes p := by
  simp [stripSlashes]

theorem stripSlashes_snoc (p : List Char) (c : Char) (hc : c ≠ '/') :
    stripSlashes (p ++ [c]) = p ++ [c] := by
  simp [stripSlashes, hc]

/-- On a path with a byte other than `/` the loop stays inside the buffer and
stops behind the last such byte. -/
theorem dirent_strip_ok (path : List Char) :
    (∃ c ∈ path, c ≠ '/') →
      ∃ k, dirent_strip path path.length = some k ∧ path.take k = stripSlashes path ∧
        k ≤ path.length := by
  induction path using List.reverseRecOn with
  | nil =>
    rintro ⟨c, hc, _⟩
    simp at hc
  | append_singleton p c ih =>
    intro hex
    have hlen : (p ++ [c]).length = p.length + 1 := by simp
    have hread : charAt (p ++ [c]) ((p.length : Nat) : Int) = c := by
      have h := charAt_append_right p [c] 0
      simp only [Nat.add_zero] at h
      rw [h]
      rfl
    by_cases hc : c = '/'
    · subst hc
      have hex2 : ∃ c ∈ p, c ≠ '/' := by
        obtain ⟨x, hx, hne⟩ := hex
        rcases List.mem_append.mp hx with h | h
        · exact ⟨x, h, hne⟩
        · simp at h
          exact absurd h hne
      obtain ⟨k, h1, h2, h3⟩ := ih hex2
      refine ⟨k, ?_, ?_, by omega⟩
      · rw [hlen, dirent_strip, if_pos hread, dirent_strip_append p ['/'] _ (le_refl _)]
        exact h1
      · rw [List.take_append_of_le_length h3, h2, stripSlashes_snoc_slash]
    · refine ⟨p.length + 1, ?_, ?_, by omega⟩
      · have hne : ¬ (charAt (p ++ [c]) ((p.length : Nat) : Int) = '/') := by
          rw [hread]
          exact hc
        rw [hlen, dirent_strip, if_neg hne]
      · rw [stripSlashes_snoc p c hc, ← hlen, List.take_length]

theorem dirent_skip_iff (name : List Char) (hnul : '\x00' ∉ name) :
    dirent_skip name = true ↔ name = ['.'] ∨ name = ['.', '.'] := by
  match name, hnul with
  | [], _ => decide
  | [a], _ =>
    have h1 : charAt [a] 0 = a := rfl
    have h2 : charAt [a] 1 = '\x00' := rfl
    simp [dirent_skip, h1, h2]
  | [a, b], h =>
    have h1 : charAt [a, b] 0 = a := rfl
    have h2 : charAt [a, b] 1 = b := rfl
    have h3 : charAt [a, b] 2 = '\x00' := rfl
    have hb : b ≠ '\x00' := by
      intro hb
      apply h
      simp [hb]
    simp [dirent_skip, h1, h2, h3, hb]
  | a :: b :: c :: rest, h =>
    have h1 : charAt (a :: b :: c :: rest) 0 = a := rfl
    have h2 : charAt (a :: b :: c :: rest) 1 = b := rfl
    have h3 : charAt (a :: b :: c :: rest) 2 = c := rfl
    have hb : b ≠ '\x00' := by
      intro hb
      apply h
      simp [hb]
    have hc : c ≠ '\x00' := by
      intro hc
      apply h
      simp [hc]
    simp [dirent_skip, h1, h2, h3, hb, hc]

/-- The loop with a visitor that always returns 0 and entries that all fit. -/
theorem dirent_loop_all {σ : Type} (fn : σ → List Char → Int × σ) (path_sz : Nat)
    (dir : List Char) (hzero : ∀ s p, (fn s p).1 = 0) :
    ∀ (entries : List (List Char)) (run : DirentRun σ),
      (∀ e ∈ entries, '\x00' ∉ e) →
      (∀ e ∈ entries, dir.length + e.length + 1 ≤ path_sz) →
      (dirent_loop fn path_sz dir entries run).ret = DirentResult.returned 0 ∧
      (dirent_loop fn path_sz dir entries run).calls.map (fun c => c.1)
        = run.calls.map (fun c => c.1) ++
          (entries.filter (fun e => decide (e ≠ ['.'] ∧ e ≠ ['.', '.']))).map
            (fun e => dir ++ e) := by
  intro entries
  induction entries with
  | nil =>
    intro run _ _
    simp [dirent_loop]
  | cons e rest ih =>
    intro run hnul hfit
    have hnul2 : ∀ x ∈ rest, '\x00' ∉ x := fun x hx => hnul x (by simp [hx])
    have hfit2 : ∀ x ∈ rest, dir.length + x.length + 1 ≤ path_sz :=
      fun x hx => hfit x (by simp [hx])
    have hskip := dirent_skip_iff e (hnul e (by simp))
    by_cases hs : dirent_skip e = true
    · have hdot : ¬ (e ≠ ['.'] ∧ e ≠ ['.', '.']) := by
        rcases hskip.mp hs with h | h
        · exact fun hh => hh.1 h
        · exact fun hh => hh.2 h
      rw [dirent_loop, if_pos hs]
      rw [List.filter_cons_of_neg (by simpa using hdot)]
      exact ih run hnul2 hfit2
    · have hdot : e ≠ ['.'] ∧ e ≠ ['.', '.'] := by
        constructor
        · exact fun h => hs (hskip.mpr (Or.inl h))
        · exact fun h => hs (hskip.mpr (Or.inr h))
      have hfits : ¬ (path_sz < dir.length + e.length + 1) := by
        have := hfit e (by simp)
        omega
      have hz := hzero run.arg (dir ++ e)
      rw [dirent_loop, if_neg hs]
      simp only [hfits, if_false, hz, lt_irrefl, gt_iff_lt]
      rw [List.filter_cons_of_pos (by simpa using hdot)]
      have h := ih
        { ret := run.ret, arg := (fn run.arg (dir ++ e)).2, path := dir ++ e,
          calls := run.calls ++ [(dir ++ e, 0)],
          writes := run.writes ++ (List.range (e.length + 1)).map (fun i => dir.length + i) }
        hnul2 hfit2
      refine ⟨h.1, ?_⟩
      rw [h.2]
      simp

/-- On a path made only of `/` the loop leaves the buffer. -/
theorem dirent_strip_all_slash (path : List Char) (hall : ∀ c ∈ path, c = '/') :
    ∀ k, k ≤ path.length → dirent_strip path k = none := by
  intro k
  induction k with
  | zero => intro _; rfl
  | succ k ih =>
    intro hk
    have hlt : k < path.length := by omega
    have hread : charAt path ((k : Nat) : Int) = '/' := by
      rw [charAt_ofNat, List.getD_eq_getElem path '\x00' hlt]
      exact hall _ (List.getElem_mem hlt)
    rw [dirent_strip, if_pos hread]
    exact ih (by omega)

/-- C13 (counterexample): the path `/d//` in a buffer of 5 bytes, the
directory `/d/` holding the one entry `a`.  The entry path `/d/a` and its
terminator fit in the 5 bytes and the visitor returns 0, yet `gitfo_dirent`
returns `GIT_EINVALIDARGS` without a call of the visitor: the test of line 258
wants two bytes more than the length of the path as it was passed.  On the
path `/` in a buffer of 64 bytes there is no run that stays in the buffer. -/
theorem dirent_rejects_short_buffer :
    (stripSlashes "/d//".toList ++ ['/']).length + "a".toList.length + 1 ≤ 5 ∧
    readerOf "/d/".toList ["a".toList] (stripSlashes "/d//".toList ++ ['/'])
      = some ["a".toList] ∧
    gitfo_dirent (readerOf "/d/".toList ["a".toList]) countingVisitor "/d//".toList 5 0
      = some { ret := DirentResult.thrown GIT_EINVALIDARGS, arg := 0, path := "/d//".toList,
               calls := [], writes := [] } ∧
    gitfo_dirent (readerOf "/".toList ["a".toList]) countingVisitor "/".toList 64 0
      = none := by
  decide

/-- C13 (amended): entry filtering.  Let the reader deliver the entries of the
directory, the names be C strings, every entry path fit in the buffer and the
visitor always return 0.  When the path has a byte other than `/` and the
buffer holds two bytes more than the path, `gitfo_dirent` returns 0 and calls
the visitor once for each entry that is neither `.` nor `..`, in the order of
the listing, on the directory path with one trailing `/` followed by the name.
When the path is empty or the buffer holds less than two bytes more than the
path, `gitfo_dirent` returns `GIT_EINVALIDARGS` and calls nothing.  On a path
that is not empty and made only of `/`, in a buffer of two bytes more, no run
stays in the buffer. -/
theorem dirent_visits_entries {σ : Type} (opendir : List Char → Option (List (List Char)))
    (fn : σ → List Char → Int × σ) (path : List Char) (path_sz : Nat) (arg : σ)
    (entries : List (List Char))
    (hopen : opendir (stripSlashes path ++ ['/']) = some entries)
    (hnul : ∀ e ∈ entries, '\x00' ∉ e)
    (hfit : ∀ e ∈ entries, (stripSlashes path ++ ['/']).length + e.length + 1 ≤ path_sz)
    (hzero : ∀ s p, (fn s p).1 = 0) :
    ((∃ c ∈ path, c ≠ '/') → path.length + 2 ≤ path_sz →
      ∃ run, gitfo_dirent opendir fn path path_sz arg = some run ∧
        run.ret = DirentResult.returned 0 ∧
        run.calls.map (fun c => c.1)
          = (entries.filter (fun e => decide (e ≠ ['.'] ∧ e ≠ ['.', '.']))).map
              (fun e => stripSlashes path ++ ['/'] ++ e)) ∧
    (path = [] ∨ path_sz < path.length + 2 →
      gitfo_dirent opendir fn path path_sz arg
        = some { ret := DirentResult.thrown GIT_EINVALIDARGS, arg := arg, path := path,
                 calls := [], writes := [] }) ∧
    (path ≠ [] → (∀ c ∈ path, c = '/') → path.length + 2 ≤ path_sz →
      gitfo_dirent opendir fn path path_sz arg = none) := by
  refine ⟨?_, ?_, ?_⟩
  · intro hpath hsz
    obtain ⟨k, hk, htake, _⟩ := dirent_strip_ok path hpath
    have hne : path ≠ [] := by
      obtain ⟨c, hc, _⟩ := hpath
      exact List.ne_nil_of_mem hc
    have hcheck : ¬ (path.length = 0 ∨ path_sz < path.length + 2) := by
      intro h
      rcases h with h | h
      · exact hne (List.length_eq_zero.mp h)
      · omega
    unfold gitfo_dirent
    simp only [hcheck, if_false, hk, htake, hopen]
    refine ⟨_, rfl, ?_⟩
    have h := dirent_loop_all fn path_sz (stripSlashes path ++ ['/']) hzero entries
      { ret := DirentResult.returned 0, arg := arg, path := stripSlashes path ++ ['/'],
        calls := [], writes := [k, k + 1] } hnul hfit
    refine ⟨h.1, ?_⟩
    rw [h.2]
    simp
  · intro h
    have hcheck : path.length = 0 ∨ path_sz < path.length + 2 := by
      rcases h with h | h
      · exact Or.inl (by rw [h]; rfl)
      · exact Or.inr h
    unfold gitfo_dirent
    simp only [hcheck, if_true]
  · intro hne hall hsz
    have hcheck : ¬ (path.length = 0 ∨ path_sz < path.length + 2) := by
      intro h
      rcases h with h | h
      · exact hne (List.length_eq_zero.mp h)
      · omega
    unfold gitfo_dirent
    simp only [hcheck, if_false, dirent_strip_all_slash path hall path.length (le_refl _)]

theorem dirent_visits_entries_witness :
    readerOf "/d/".toList
        [".".toList, "..".toList, "a".toList, ".git".toList, "...".toList, "..a".toList,
          "b".toList]
        (stripSlashes "/d//".toList ++ ['/'])
      = some [".".toList, "..".toList, "a".toList, ".git".toList, "...".toList,
          "..a".toList, "b".toList] ∧
    (∃ c ∈ "/d//".toList, c ≠ '/') ∧ "/d//".toList.length + 2 ≤ 64 ∧
    (∃ run,
      gitfo_dirent
          (readerOf "/d/".toList
            [".".toList, "..".toList, "a".toList, ".git".toList, "...".toList, "..a".toList,
              "b".toList])
          countingVisitor "/d//".toList 64 0 = some run ∧
      run.ret = DirentResult.returned 0 ∧
      run.calls.map (fun c => c.1)
        = ([".".toList, "..".toList, "a".toList, ".git".toList, "...".toList, "..a".toList,
            "b".toList].filter (fun e => decide (e ≠ ['.'] ∧ e ≠ ['.', '.']))).map
            (fun e => stripSlashes "/d//".toList ++ ['/'] ++ e)) ∧
    ([".".toList, "..".toList, "a".toList, ".git".toList, "...".toList, "..a".toList,
        "b".toList].filter (fun e => decide (e ≠ ['.'] ∧ e ≠ ['.', '.']))).map
        (fun e => stripSlashes "/d//".toList ++ ['/'] ++ e)
      = ["/d/a".toList, "/d/.git".toList, "/d/...".toList, "/d/..a".toList, "/d/b".toList] :=
  ⟨by decide, by decide, by decide,
   (dirent_visits_entries _ countingVisitor "/d//".toList 64 0 _ (by decide) (by decide)
     (by decide) (fun _ _ => rfl)).1 (by decide) (by decide),
   by decide⟩

theorem dirent_strip_le (path : List Char) :
    ∀ n k, dirent_strip path n = some k → k ≤ n := by
  intro n
  induction n with
  | zero =>
    intro k h
    simp [dirent_strip] at h
  | succ n ih =>
    intro k h
    unfold dirent_strip at h
    split at h
    · have := ih k h
      omega
    · simp at h
      omega

/-- What the loop does at an entry that is not skipped. -/
theorem dirent_loop_step {σ : Type} (fn : σ → List Char → Int × σ) (path_sz : Nat)
    (dir d_name : List Char) (rest : List (List Char)) (r0 : DirentRun σ)
    (hskip : dirent_skip d_name = false) :
    (path_sz < dir.length + d_name.length + 1 →
      dirent_loop fn path_sz dir (d_name :: rest) r0
        = { r0 with ret := DirentResult.thrown GIT_ERROR }) ∧
    (dir.length + d_name.length + 1 ≤ path_sz →
      dirent_loop fn path_sz dir (d_name :: rest) r0 =
        (if (fn r0.arg (dir ++ d_name)).1 < 0 ∨ (fn r0.arg (dir ++ d_name)).1 > 0 then
          { ret := DirentResult.returned (fn r0.arg (dir ++ d_name)).1,
            arg := (fn r0.arg (dir ++ d_name)).2, path := dir ++ d_name,
            calls := r0.calls ++ [(dir ++ d_name, (fn r0.arg (dir ++ d_name)).1)],
            writes := r0.writes ++
              (List.range (d_name.length + 1)).map (fun i => dir.length + i) }
        else dirent_loop fn path_sz dir rest
          { ret := r0.ret,
            arg := (fn r0.arg (dir ++ d_name)).2, path := dir ++ d_name,
            calls := r0.calls ++ [(dir ++ d_name, (fn r0.arg (dir ++ d_name)).1)],
            writes := r0.writes ++
              (List.range (d_name.length + 1)).map (fun i => dir.length + i) })) := by
  have hs : ¬ (dirent_skip d_name = true) := by
    rw [hskip]
    simp
  constructor
  · intro h
    rw [dirent_loop, if_neg hs]
    simp only [h, if_true]
  · intro h
    have hn : ¬ (path_sz < dir.length + d_name.length + 1) := by omega
    rw [dirent_loop, if_neg hs]
    simp only [hn, if_false]
    by_cases h1 : (fn r0.arg (dir ++ d_name)).1 < 0
    · simp [h1]
    · by_cases h2 : (fn r0.arg (dir ++ d_name)).1 > 0
      · simp [h1, h2]
      · simp [h1, h2]

/-- The loop only adds to the record of calls and of writes, and it writes
inside the buffer. -/
theorem dirent_loop_appends {σ : Type} (fn : σ → List Char → Int × σ) (path_sz : Nat)
    (dir : List Char) :
    ∀ (entries : List (List Char)) (r0 : DirentRun σ),
      ∃ c w, (dirent_loop fn path_sz dir entries r0).calls = r0.calls ++ c ∧
        (dirent_loop fn path_sz dir entries r0).writes = r0.writes ++ w ∧
        ∀ i ∈ w, i < path_sz := by
  intro entries
  induction entries with
  | nil =>
    intro r0
    exact ⟨[], [], by simp [dirent_loop], by simp [dirent_loop], by simp⟩
  | cons e rest ih =>
    intro r0
    by_cases hs : dirent_skip e = true
    · rw [dirent_loop, if_pos hs]
      exact ih r0
    · have hs2 : dirent_skip e = false := by simpa using hs
      have hstep := dirent_loop_step fn path_sz dir e rest r0 hs2
      by_cases hfit : path_sz < dir.length + e.length + 1
      · rw [hstep.1 hfit]
        exact ⟨[], [], by simp, by simp, by simp⟩
      · have hfit2 : dir.length + e.length + 1 ≤ path_sz := by omega
        have hw : ∀ i ∈ (List.range (e.length + 1)).map (fun i => dir.length + i),
            i < path_sz := by
          intro i hi
          simp at hi
          obtain ⟨j, hj, rfl⟩ := hi
          omega
        rw [hstep.2 hfit2]
        split
        · exact ⟨[(dir ++ e, (fn r0.arg (dir ++ e)).1)], _, rfl, rfl, hw⟩
        · obtain ⟨c, w, h1, h2, h3⟩ := ih
            { ret := r0.ret, arg := (fn r0.arg (dir ++ e)).2, path := dir ++ e,
              calls := r0.calls ++ [(dir ++ e, (fn r0.arg (dir ++ e)).1)],
              writes := r0.writes ++
                (List.range (e.length + 1)).map (fun i => dir.length + i) }
          refine ⟨(dir ++ e, (fn r0.arg (dir ++ e)).1) :: c,
            (List.range (e.length + 1)).map (fun i => dir.length + i) ++ w, ?_, ?_, ?_⟩
          · rw [h1]
            simp
          · rw [h2]
            simp
          · intro i hi
            rcases List.mem_append.mp hi with h | h
            · exact hw i h
            · exact h3 i h

/-- Buffer safety of the runs that stay in the buffer.  No write lands at an
index `>= path_sz`.  At an entry other than `.` and `..` that the loop
reaches: when the directory path, the name and the terminator do not fit in
`path_sz` bytes, the run ends with the buffer-too-small error, nothing more
written and the visitor not called; when they fit, the entry path is written
behind the directory path and the visitor is called on it. -/
theorem dirent_buffer_safety {σ : Type} (opendir : List Char → Option (List (List Char)))
    (fn : σ → List Char → Int × σ) (path : List Char) (path_sz : Nat) (arg : σ)
    (run : DirentRun σ)
    (hrun : gitfo_dirent opendir fn path path_sz arg = some run) :
    (∀ i ∈ run.writes, i < path_sz) ∧
    (∀ (dir d_name : List Char) (rest : List (List Char)) (r0 : DirentRun σ),
      dirent_skip d_name = false →
      (path_sz < dir.length + d_name.length + 1 →
        dirent_loop fn path_sz dir (d_name :: rest) r0
          = { r0 with ret := DirentResult.thrown GIT_ERROR }) ∧
      (dir.length + d_name.length + 1 ≤ path_sz →
        ∃ c w, (dirent_loop fn path_sz dir (d_name :: rest) r0).calls
            = r0.calls ++ (dir ++ d_name, (fn r0.arg (dir ++ d_name)).1) :: c ∧
          (dirent_loop fn path_sz dir (d_name :: rest) r0).writes
            = r0.writes ++ (List.range (d_name.length + 1)).map (fun i => dir.length + i)
              ++ w)) := by
  constructor
  · unfold gitfo_dirent at hrun
    simp only at hrun
    split at hrun
    · injection hrun with hrun
      rw [← hrun]
      simp
    · rename_i hcheck
      have hsz : path.length + 2 ≤ path_sz := by
        by_contra h
        exact hcheck (Or.inr (by omega))
      cases hk : dirent_strip path path.length with
      | none =>
        rw [hk] at hrun
        simp at hrun
      | some k =>
        rw [hk] at hrun
        simp only at hrun
        have hkle := dirent_strip_le path _ _ hk
        cases ho : opendir (path.take k ++ ['/']) with
        | none =>
          rw [ho] at hrun
          injection hrun with hrun
          rw [← hrun]
          intro i hi
          simp at hi
          omega
        | some entries =>
          rw [ho] at hrun
          injection hrun with hrun
          obtain ⟨c, w, _, h2, h3⟩ := dirent_loop_appends fn path_sz (path.take k ++ ['/'])
            entries
            { ret := DirentResult.returned 0, arg := arg, path := path.take k ++ ['/'],
              calls := [], writes := [k, k + 1] }
          rw [← hrun, h2]
          intro i hi
          rcases List.mem_append.mp hi with h | h
          · simp at h
            omega
          · exact h3 i h
  · intro dir d_name rest r0 hskip
    have hstep := dirent_loop_step fn path_sz dir d_name rest r0 hskip
    refine ⟨hstep.1, ?_⟩
    intro hfit
    rw [hstep.2 hfit]
    split
    · exact ⟨[], [], rfl, by simp⟩
    · obtain ⟨c, w, h1, h2, _⟩ := dirent_loop_appends fn path_sz dir rest
        { ret := r0.ret, arg := (fn r0.arg (dir ++ d_name)).2, path := dir ++ d_name,
          calls := r0.calls ++ [(dir ++ d_name, (fn r0.arg (dir ++ d_name)).1)],
          writes := r0.writes ++
            (List.range (d_name.length + 1)).map (fun i => dir.length + i) }
      exact ⟨c, w, by rw [h1]; simp, by rw [h2]⟩

theorem dirent_buffer_safety_witness :
    gitfo_dirent (readerOf "/d/".toList ["a".toList, "long".toList, "b".toList])
        countingVisitor "/d".toList 7 0
      = some { ret := DirentResult.thrown GIT_ERROR, arg := 1, path := "/d/a".toList,
               calls := [("/d/a".toList, 0)], writes := [2, 3, 3, 4] } ∧
    "/d/long".toList.length + 1 = 7 + 1 ∧
    ((∀ i ∈ [2, 3, 3, 4], i < 7) ∧
    (∀ (dir d_name : List Char) (rest : List (List Char)) (r0 : DirentRun Nat),
      dirent_skip d_name = false →
      (7 < dir.length + d_name.length + 1 →
        dirent_loop countingVisitor 7 dir (d_name :: rest) r0
          = { r0 with ret := DirentResult.thrown GIT_ERROR }) ∧
      (dir.length + d_name.length + 1 ≤ 7 →
        ∃ c w, (dirent_loop countingVisitor 7 dir (d_name :: rest) r0).calls
            = r0.calls ++ (dir ++ d_name, (countingVisitor r0.arg (dir ++ d_name)).1) :: c ∧
          (dirent_loop countingVisitor 7 dir (d_name :: rest) r0).writes
            = r0.writes ++ (List.range (d_name.length + 1)).map (fun i => dir.length + i)
              ++ w))) :=
  ⟨by decide, by decide,
   dirent_buffer_safety (readerOf "/d/".toList ["a".toList, "long".toList, "b".toList])
     countingVisitor "/d".toList 7 0
     { ret := DirentResult.thrown GIT_ERROR, arg := 1, path := "/d/a".toList,
       calls := [("/d/a".toList, 0)], writes := [2, 3, 3, 4] } (by decide)⟩

/-- The stores of lines 263-264 agree with the run wherever the loop stays in
the buffer. -/
theorem dirent_store_indices_inside (before path : List Char) (k : Nat)
    (h : dirent_strip path path.length = some k) :
    dirent_store_indices before path = some (k, k + 1) := by
  unfold dirent_store_indices
  rw [h]

/-- Where nothing wraps, the test of line 283 is the one of the loop and the
bytes written are those behind the directory path. -/
theorem dirent_entry_writes_inside (wd_len de_len path_sz : Nat)
    (h : wd_len + de_len + 1 < 2 ^ 64) :
    dirent_entry_writes wd_len de_len path_sz
      = if path_sz < wd_len + de_len + 1 then none
        else some ((List.range (de_len + 1)).map (fun i => wd_len + i)) := by
  unfold dirent_entry_writes
  rw [Nat.mod_eq_of_lt h]
  split
  · rfl
  · congr 1
    apply List.map_congr_left
    intro i hi
    have hi2 : i < de_len + 1 := List.mem_range.mp hi
    exact Nat.mod_eq_of_lt (by omega)

/-- C14 (failing input): the path `/` in a buffer of 64 bytes, the byte before
the buffer being `/` and the one before that `x`, as when the caller passes
the last byte of the string `x//`.  The loop of lines 261-262 passes `path[0]`
and `path[-1]` and stops with `wd_len` wrapped to `2^64 - 1`; the store
`path[wd_len++] = '/'` lands at that index, which is not below `path_sz`: it
is the byte before the buffer.  With two bytes `/` before the buffer both
stores land outside and the loop over the entries starts with
`wd_len = 2^64 - 1`: for a name of one byte the test of line 283 computes
`wd_len + de_len + 1` as 1, lets the entry pass, and `strcpy` writes its first
byte before the buffer; in a walk that stays in the buffer, as on `/d//`, the
same test stops a name of 61 bytes.  No run of `gitfo_dirent` on the path `/`
stays in the buffer. -/
theorem dirent_store_before_buffer :
    dirent_store_indices ['/', 'x'] "/".toList = some (2 ^ 64 - 1, 0) ∧
    ¬ (2 ^ 64 - 1 < 64) ∧
    dirent_store_indices ['/', '/', 'x'] "/".toList = some (2 ^ 64 - 2, 2 ^ 64 - 1) ∧
    dirent_entry_writes (2 ^ 64 - 1) 1 64 = some [2 ^ 64 - 1, 0] ∧
    dirent_store_indices ['x'] "/d//".toList = some (2, 3) ∧
    dirent_entry_writes 3 60 64 = some ((List.range 61).map (fun i => 3 + i)) ∧
    dirent_entry_writes 3 61 64 = none ∧
    gitfo_dirent (readerOf "/".toList ["a".toList]) countingVisitor "/".toList 64 0
      = none := by
  refine ⟨?_, ?_, ?_, ?_, ?_, ?_, ?_, ?_⟩ <;> decide

theorem dirent_loop_shape {σ : Type} (fn : σ → List Char → Int × σ) (path_sz : Nat)
    (dir : List Char) :
    ∀ (entries : List (List Char)) (r0 : DirentRun σ), (∀ c ∈ r0.calls, c.2 = 0) →
      direntShape (dirent_loop fn path_sz dir entries r0) ∧
      ∀ c ∈ (dirent_loop fn path_sz dir entries r0).calls,
        c ∈ r0.calls ∨ ∃ s, (fn s c.1).1 = c.2 := by
  intro entries
  induction entries with
  | nil =>
    intro r0 h0
    constructor
    · left
      exact ⟨Or.inl (by simp [dirent_loop]), by simpa [dirent_loop] using h0⟩
    · intro c hc
      left
      simpa [dirent_loop] using hc
  | cons e rest ih =>
    intro r0 h0
    by_cases hs : dirent_skip e = true
    · rw [dirent_loop, if_pos hs]
      exact ih r0 h0
    · have hs2 : dirent_skip e = false := by simpa using hs
      have hstep := dirent_loop_step fn path_sz dir e rest r0 hs2
      by_cases hfit : path_sz < dir.length + e.length + 1
      · rw [hstep.1 hfit]
        exact ⟨Or.inl ⟨Or.inr ⟨GIT_ERROR, rfl⟩, h0⟩, fun c hc => Or.inl hc⟩
      · have hfit2 : dir.length + e.length + 1 ≤ path_sz := by omega
        rw [hstep.2 hfit2]
        split
        · rename_i hv
          constructor
          · right
            refine ⟨r0.calls, dir ++ e, (fn r0.arg (dir ++ e)).1, ?_, rfl, h0, rfl⟩
            intro h
            rw [h] at hv
            simp at hv
          · intro c hc
            simp only at hc
            rcases List.mem_append.mp hc with h | h
            · exact Or.inl h
            · simp at h
              right
              exact ⟨r0.arg, by rw [h]⟩
        · rename_i hv
          have hz : (fn r0.arg (dir ++ e)).1 = 0 := by
            have h1 : ¬ ((fn r0.arg (dir ++ e)).1 < 0) := fun h => hv (Or.inl h)
            have h2 : ¬ ((fn r0.arg (dir ++ e)).1 > 0) := fun h => hv (Or.inr h)
            omega
          have h1 : ∀ c ∈ r0.calls ++ [(dir ++ e, (fn r0.arg (dir ++ e)).1)], c.2 = 0 := by
            intro c hc
            rcases List.mem_append.mp hc with h | h
            · exact h0 c h
            · simp at h
              rw [h]
              exact hz
          obtain ⟨hshape, hcalls⟩ := ih
            { ret := r0.ret, arg := (fn r0.arg (dir ++ e)).2, path := dir ++ e,
              calls := r0.calls ++ [(dir ++ e, (fn r0.arg (dir ++ e)).1)],
              writes := r0.writes ++
                (List.range (e.length + 1)).map (fun i => dir.length + i) } h1
          refine ⟨hshape, ?_⟩
          intro c hc
          rcases hcalls c hc with h | h
          · simp only at h
            rcases List.mem_append.mp h with h2 | h2
            · exact Or.inl h2
            · simp at h2
              right
              exact ⟨r0.arg, by rw [h2]⟩
          · exact Or.inr h

theorem dirent_shape {σ : Type} (opendir : List Char → Option (List (List Char)))
    (fn : σ → List Char → Int × σ) (path : List Char) (path_sz : Nat) (arg : σ)
    (run : DirentRun σ)
    (hrun : gitfo_dirent opendir fn path path_sz arg = some run) :
    direntShape run ∧ ∀ c ∈ run.calls, ∃ s, (fn s c.1).1 = c.2 := by
  unfold gitfo_dirent at hrun
  simp only at hrun
  split at hrun
  · injection hrun with hrun
    rw [← hrun]
    exact ⟨Or.inl ⟨Or.inr ⟨_, rfl⟩, by simp⟩, by simp⟩
  · cases hk : dirent_strip path path.length with
    | none =>
      rw [hk] at hrun
      simp at hrun
    | some k =>
      rw [hk] at hrun
      simp only at hrun
      cases ho : opendir (path.take k ++ ['/']) with
      | none =>
        rw [ho] at hrun
        injection hrun with hrun
        rw [← hrun]
        exact ⟨Or.inl ⟨Or.inr ⟨_, rfl⟩, by simp⟩, by simp⟩
      | some entries =>
        rw [ho] at hrun
        injection hrun with hrun
        have h := dirent_loop_shape fn path_sz (path.take k ++ ['/']) entries
          { ret := DirentResult.returned 0, arg := arg, path := path.take k ++ ['/'],
            calls := [], writes := [k, k + 1] } (by simp)
        rw [← hrun]
        refine ⟨h.1, ?_⟩
        intro c hc
        rcases h.2 c hc with h2 | h2
        · simp at h2
        · exact h2

/-- C15: the three outcomes of the visitor.  In every run: a call of the
visitor that returns a value other than 0 is the last call, and the run
returns that value unchanged; a run that returns a value other than 0 returns
the value of its last call; a run that returns 0 has seen 0 from every call;
every recorded value is a value of the visitor.  Negative, positive and zero
returns are therefore told apart. -/
theorem dirent_visitor_tristate {σ : Type}
    (opendir : List Char → Option (List (List Char)))
    (fn : σ → List Char → Int × σ) (path : List Char) (path_sz : Nat) (arg : σ)
    (run : DirentRun σ)
    (hrun : gitfo_dirent opendir fn path path_sz arg = some run) :
    (∀ pre c post, run.calls = pre ++ c :: post → c.2 ≠ 0 →
      post = [] ∧ run.ret = DirentResult.returned c.2) ∧
    (∀ v, run.ret = DirentResult.returned v → v ≠ 0 →
      ∃ pre p, run.calls = pre ++ [(p, v)]) ∧
    (run.ret = DirentResult.returned 0 → ∀ c ∈ run.calls, c.2 = 0) ∧
    (∀ c ∈ run.calls, ∃ s, (fn s c.1).1 = c.2) := by
  obtain ⟨hshape, hfn⟩ := dirent_shape opendir fn path path_sz arg run hrun
  refine ⟨?_, ?_, ?_, hfn⟩
  · intro pre c post hcalls hc
    rcases hshape with ⟨_, hz⟩ | ⟨pre2, p, v, hv, hcalls2, hz, hret⟩
    · exact absurd (hz c (by rw [hcalls]; simp)) hc
    · rw [hcalls] at hcalls2
      rcases List.eq_nil_or_concat post with h | ⟨post2, l, h⟩
      · subst h
        have h1 : c = (p, v) := List.append_inj_right' hcalls2 rfl |> fun h => by simpa using h
        rw [h1]
        exact ⟨rfl, hret⟩
      · have h1 : post = post2 ++ [l] := by simpa using h
        rw [h1] at hcalls2
        have h2 : pre ++ c :: (post2 ++ [l]) = (pre ++ c :: post2) ++ [l] := by simp
        rw [h2] at hcalls2
        have h3 : pre ++ c :: post2 = pre2 := List.append_inj_left' hcalls2 rfl
        exact absurd (hz c (by rw [← h3]; simp)) hc
  · intro v hret hv
    rcases hshape with ⟨h1, _⟩ | ⟨pre2, p, v2, _, hcalls2, _, hret2⟩
    · rcases h1 with h1 | ⟨e, h1⟩
      · rw [h1] at hret
        injection hret with hret
        exact absurd hret.symm hv
      · rw [h1] at hret
        simp at hret
    · rw [hret2] at hret
      injection hret with hret
      subst hret
      exact ⟨pre2, p, hcalls2⟩
  · intro hret
    rcases hshape with ⟨_, hz⟩ | ⟨pre2, p, v, hv, _, _, hret2⟩
    · exact hz
    · rw [hret2] at hret
      injection hret with hret
      exact absurd hret hv

theorem dirent_visitor_tristate_witness :
    gitfo_dirent (readerOf "/d/".toList ["a".toList, ".git".toList, "b".toList])
        (stoppingVisitor "/d/.git".toList (-7)) "/d".toList 64 0
      = some { ret := DirentResult.returned (-7), arg := 2, path := "/d/.git".toList,
               calls := [("/d/a".toList, 0), ("/d/.git".toList, -7)],
               writes := [2, 3, 3, 4, 3, 4, 5, 6, 7] } ∧
    (gitfo_dirent (readerOf "/d/".toList ["a".toList, ".git".toList, "b".toList])
        (stoppingVisitor "/d/.git".toList 3) "/d".toList 64 0).map (fun r => r.ret)
      = some (DirentResult.returned 3) ∧
    ((∀ pre c post,
        [("/d/a".toList, (0 : Int)), ("/d/.git".toList, -7)] = pre ++ c :: post → c.2 ≠ 0 →
        post = [] ∧ DirentResult.returned (-7) = DirentResult.returned c.2) ∧
    (∀ v, DirentResult.returned (-7) = DirentResult.returned v → v ≠ 0 →
      ∃ pre p, [("/d/a".toList, (0 : Int)), ("/d/.git".toList, -7)] = pre ++ [(p, v)]) ∧
    (DirentResult.returned (-7) = DirentResult.returned 0 →
      ∀ c ∈ [("/d/a".toList, (0 : Int)), ("/d/.git".toList, -7)], c.2 = 0) ∧
    (∀ c ∈ [("/d/a".toList, (0 : Int)), ("/d/.git".toList, -7)],
      ∃ s, (stoppingVisitor "/d/.git".toList (-7) s c.1).1 = c.2)) :=
  ⟨by decide, by decide,
   dirent_visitor_tristate (readerOf "/d/".toList ["a".toList, ".git".toList, "b".toList])
     (stoppingVisitor "/d/.git".toList (-7)) "/d".toList 64 0
     { ret := DirentResult.returned (-7), arg := 2, path := "/d/.git".toList,
       calls := [("/d/a".toList, 0), ("/d/.git".toList, -7)],
       writes := [2, 3, 3, 4, 3, 4, 5, 6, 7] } (by decide)⟩

/-- C16 (failing input): on the path `/`, and on `//`, in a buffer of 64
bytes, the loop `while (path[wd_len - 1] == '/') wd_len--` comes to
`wd_len = 0` and reads `path[wd_len - 1]`, a byte before the buffer; a path
with another byte, such as `/d//`, is rewritten to `/d/` inside the buffer. -/
theorem dirent_strip_reads_before_buffer :
    dirent_strip "/".toList "/".toList.length = none ∧
    gitfo_dirent (readerOf "/".toList ["a".toList]) countingVisitor "/".toList 64 0 = none ∧
    gitfo_dirent (readerOf "/".toList ["a".toList]) countingVisitor "//".toList 64 0 = none ∧
    (gitfo_dirent (readerOf "/d/".toList []) countingVisitor "/d//".toList 64 0).map
        (fun r => r.path)
      = some "/d/".toList := by
  decide

/-! ## Facts on file operations -/

theorem kindAt_update_root (fs : FS) (f : List (List Char) → Option Kind) :
    kindAt { fs with entry := f } [] = some dir := rfl

theorem lexFrom_nil (start : List (List Char)) : lexFrom start [] = start := rfl

end Fileops
